import Mathlib

/-!
Verification of the PaperCutter-VL orchestration pipeline against its
specification.  The development shallowly embeds the Python source
(`main.py`, `app.py`): strings and file bytes are modelled as `List Char`,
the filesystem as an association list from absolute path to content, and
the regex-substitution passes of the asset inliner as explicit left-to-right
scanners over character lists.  All definitions are executable so that
concrete counterexamples and witnesses evaluate by `decide`/`rfl`.
-/

/-- Characters of a Python string (also used for file bytes, one `Char` per byte). -/
abbrev LC := List Char

/-- Convert a Lean string literal to the character-list representation. -/
def cs (s : String) : LC := s.toList

/-- Generic association-list lookup (first match wins). -/
def alookup {κ ν : Type} [DecidableEq κ] : List (κ × ν) → κ → Option ν
  | [], _ => none
  | (q, c) :: rest, k => if q = k then some c else alookup rest k

/-- Filesystem model: association list from absolute path to file content. -/
abbrev FS := List (LC × LC)

/-- Model of `os.path.isfile`. -/
def fsIsFile (fs : FS) (p : LC) : Bool := (alookup fs p).isSome

/-- Best-effort removal of every path in `ps` (the `for fp in to_delete: os.remove(fp)`
loop of `convert_images_in_json`; removing a missing path is a no-op). -/
def fsEraseAll (fs : FS) (ps : List LC) : FS :=
  fs.filter (fun e => decide (e.1 ∉ ps))

/-- The base64 alphabet used by `base64.b64encode`. -/
def b64Alpha : LC := cs "ABCDEFGHIJKLMNOPQRSTUVWXYZabcdefghijklmnopqrstuvwxyz0123456789+/"

/-- One base64 digit. -/
def b64Digit (n : Nat) : Char := b64Alpha.getD n '='

/-- Standard base64 encoding of a byte sequence, three bytes at a time. -/
def b64Groups : List Nat → LC
  | [] => []
  | [a] => [b64Digit (a / 4), b64Digit (a % 4 * 16), '=', '=']
  | [a, b] => [b64Digit (a / 4), b64Digit (a % 4 * 16 + b / 16), b64Digit (b % 16 * 4), '=']
  | a :: b :: c :: rest =>
      b64Digit (a / 4) :: b64Digit (a % 4 * 16 + b / 16) ::
      b64Digit (b % 16 * 4 + c / 64) :: b64Digit (c % 64) :: b64Groups rest

/-- Model of `_to_base64`: read a file's bytes and base64-encode them
(`base64.b64encode(f.read()).decode("ascii")`).  Bytes are represented by the
characters' code points. -/
def toBase64 (content : LC) : LC := b64Groups (content.map (fun ch => ch.toNat % 256))

/-- Lowercased extension of a path, as computed by
`os.path.splitext(fp)[1].lower()`: the part of the basename from its last dot,
ignoring a leading dot of the basename. -/
def extOf (p : LC) : LC :=
  let base := (p.reverse.takeWhile (fun c => c ≠ '/')).reverse
  let stem := base.dropWhile (fun c => c = '.')
  let rev := stem.reverse
  let pre := rev.takeWhile (fun c => c ≠ '.')
  if pre.length < rev.length then ('.' :: pre.reverse).map Char.toLower else []

/-- Model of `_mime_from_ext`. -/
def mimeFromExt (p : LC) : LC :=
  let e := extOf p
  if e = cs ".jpg" ∨ e = cs ".jpeg" then cs "image/jpeg"
  else if e = cs ".png" then cs "image/png"
  else if e = cs ".webp" then cs "image/webp"
  else if e = cs ".bmp" then cs "image/bmp"
  else if e = cs ".gif" then cs "image/gif"
  else if e = cs ".tif" ∨ e = cs ".tiff" then cs "image/tiff"
  else cs "application/octet-stream"

/-- A reference that already carries a scheme and is left untouched by the
inliner: `p.startswith("http://") or p.startswith("https://") or p.startswith("data:")`. -/
def isScheme (p : LC) : Bool :=
  (cs "http://").isPrefixOf p || (cs "https://").isPrefixOf p || (cs "data:").isPrefixOf p

/-- Model of `os.path.isabs` for POSIX paths. -/
def isAbsPath (p : LC) : Bool := (cs "/").isPrefixOf p

/-- Model of `p if os.path.isabs(p) else os.path.join(base_dir, p)` for a
non-empty `base_dir` without trailing slash. -/
def resolvePath (base p : LC) : LC := if isAbsPath p then p else base ++ '/' :: p

/-- The guard used by the textual pass before rewriting an occurrence:
`path.startswith("imgs/") or os.path.isabs(path)`. -/
def imgsOrAbs (p : LC) : Bool := (cs "imgs/").isPrefixOf p || isAbsPath p

/-- Mutable state threaded through one inlining pass: the optional
`cache` dictionary, the optional `to_delete` set, plus read instrumentation:
`readsC` records file reads performed through a present cache (cache misses),
`readsU` records reads performed with no cache consulted (the unstructured
textual pass and the bare-quoted `"imgs/..."` regex fallback). -/
structure MSt where
  cache : Option (List (LC × LC))
  toDel : Option (List LC)
  readsC : List LC
  readsU : List LC
deriving DecidableEq

/-- Add a path to the pending-deletion set when one is present
(`if to_delete is not None: to_delete.add(full)`). -/
def addDel (st : MSt) (p : LC) : MSt :=
  match st.toDel with
  | some l => { st with toDel := some (if p ∈ l then l else l ++ [p]) }
  | none => st

/-- Shared read-or-cache step of both path converters: on a cache hit return the
cached payload; on a miss (or with no cache) read the file and base64-encode it.
The returned `Bool` tells whether the cache-miss branch was taken. -/
def obtainB64 (ct full : LC) (st : MSt) : LC × MSt × Bool :=
  match st.cache with
  | some m =>
    match alookup m full with
    | some b => (b, st, false)
    | none =>
      let b := toBase64 ct
      (b, { st with cache := some ((full, b) :: m), readsC := st.readsC ++ [full] }, true)
  | none => (toBase64 ct, { st with readsU := st.readsU ++ [full] }, true)

/-- Model of the loop body of `_convert_paths` for one string element: scheme
paths kept, missing files kept, existing files replaced by their bare base64
payload; the path is added to `to_delete` only in the cache-miss branch. -/
def convertPathBare (fs : FS) (base p : LC) (st : MSt) : LC × MSt :=
  if isScheme p then (p, st)
  else
    let full := resolvePath base p
    match alookup fs full with
    | some ct =>
      let r := obtainB64 ct full st
      (r.1, if r.2.2 then addDel r.2.1 full else r.2.1)
    | none => (p, st)

/-- Model of `_convert_path` inside `_inline_convert_images_in_text`: like the
bare variant but the payload is wrapped as a `data:<mime>;base64,<payload>` URI
and the path is added to `to_delete` whenever the file exists (also on a cache
hit). -/
def convertPathInline (fs : FS) (base p : LC) (st : MSt) : LC × MSt :=
  if isScheme p then (p, st)
  else
    let full := resolvePath base p
    match alookup fs full with
    | some ct =>
      let r := obtainB64 ct full st
      (cs "data:" ++ mimeFromExt full ++ cs ";base64," ++ r.1, addDel r.2.1 full)
    | none => (p, st)

/-- The double-quote and single-quote characters (kept out of literals). -/
def dqC : Char := Char.ofNat 34

/-- The single-quote character. -/
def sqC : Char := Char.ofNat 39

/-- The asset-folder convention prefix `imgs/`. -/
def imgsT : LC := cs "imgs/"

/-- One regex match, split into the three capture groups used by the source
patterns; the whole matched text is `g1 ++ g2 ++ g3` and `g2` is the path. -/
structure MatchRes where
  g1 : LC
  g2 : LC
  g3 : LC
deriving DecidableEq

/-- Length of the whole matched text. -/
def MatchRes.len (m : MatchRes) : Nat := m.g1.length + m.g2.length + m.g3.length

/-- The character class `[^q]` of the source patterns. -/
def notCh (q x : Char) : Bool := !decide (x = q)

/-- Matcher for one step of `re.sub(r'"(imgs/[^"]+)"', ...)`: a quoted
occurrence `"imgs/..."` starting at the head of the input. -/
def tryMatchQ : LC → Option MatchRes
  | [] => none
  | c :: rest =>
    if c = dqC then
      let body := rest.takeWhile (notCh dqC)
      if imgsT.isPrefixOf body ∧ imgsT.length < body.length then
        match rest.dropWhile (notCh dqC) with
        | d :: _ => if d = dqC then some ⟨[dqC], body, [dqC]⟩ else none
        | [] => none
      else none
    else none

/-- Matcher for one step of `re.sub(r'(!\[[^\]]*\]\()([^)]+)(\))', ...)`: a
Markdown image `![alt](path)` starting at the head of the input. -/
def tryMatchC : LC → Option MatchRes
  | c1 :: c2 :: rest =>
    if c1 = '!' ∧ c2 = '[' then
      let alt := rest.takeWhile (notCh ']')
      match rest.dropWhile (notCh ']') with
      | d1 :: d2 :: r2 =>
        if d1 = ']' ∧ d2 = '(' then
          let path := r2.takeWhile (notCh ')')
          if 1 ≤ path.length then
            match r2.dropWhile (notCh ')') with
            | e :: _ => if e = ')' then some ⟨'!' :: '[' :: (alt ++ [']', '(']), path, [')']⟩ else none
            | [] => none
          else none
        else none
      | _ => none
    else none
  | _ => none

/-- Case-insensitive character equality (the patterns carry `re.IGNORECASE`). -/
def lcEq (a b : Char) : Bool := a.toLower == b.toLower

/-- Case-insensitive prefix test. -/
def ciIsPre : LC → LC → Bool
  | [], _ => true
  | _ :: _, [] => false
  | p :: ps, c :: rest => lcEq p c && ciIsPre ps rest

/-- Regex word character, for the `\b` boundaries of the `<img ... src=` patterns. -/
def isWordC (c : Char) : Bool := c.isAlphanum || c = '_'

/-- Regex whitespace `\s`. -/
def isSpaceC (c : Char) : Bool := c.isWhitespace

/-- The literal `src` of the patterns. -/
def srcT : LC := cs "src"

/-- The literal `<img` of the patterns. -/
def imgT : LC := cs "<img"

/-- Attempt to complete `src\s*=\s*<q>([^<q>]+)<q>` at the head of `t`; returns
the consumed text up to and including the opening quote, the path group, and
the remainder after the closing quote. -/
def completeSrc (q : Char) (t : LC) : Option (LC × LC × LC) :=
  if ciIsPre srcT t then
    let t1 := t.drop 3
    let sp1 := t1.takeWhile isSpaceC
    match t1.dropWhile isSpaceC with
    | e :: t3 =>
      if e = '=' then
        let sp2 := t3.takeWhile isSpaceC
        match t3.dropWhile isSpaceC with
        | qc :: t5 =>
          if qc = q then
            let path := t5.takeWhile (notCh q)
            if 1 ≤ path.length then
              match t5.dropWhile (notCh q) with
              | q2 :: after => if q2 = q then some (t.take 3 ++ sp1 ++ '=' :: sp2 ++ [q], path, after) else none
              | [] => none
            else none
          else none
        | [] => none
      else none
    | [] => none
  else none

/-- Scan the `[^>]*` zone after `<img\b` for a `\bsrc\s*=\s*<q>...<q>`
occurrence.  Trying the recursive call first realizes the greedy backtracking
of `[^>]*`: the rightmost completing candidate wins.  `prev` is the character
preceding the current position, for the `\b` test. -/
def srcZone (q prev : Char) : LC → Option (LC × LC × LC)
  | [] => none
  | c :: rest =>
    if c = '>' then none
    else
      match srcZone q c rest with
      | some (z, path, after) => some (c :: z, path, after)
      | none =>
        if isWordC prev then none
        else
          match completeSrc q (c :: rest) with
          | some (mid, path, after) => some (mid, path, after)
          | none => none

/-- Matcher for one step of `re.sub(r'(<img\b[^>]*\bsrc\s*=\s*<q>)([^<q>]+)(<q>)', ...,
flags=re.IGNORECASE)` at the head of the input, for quote character `q`. -/
def tryMatchHtml (q : Char) (s : LC) : Option MatchRes :=
  if ciIsPre imgT s then
    match s.drop 4 with
    | c :: _ =>
      if isWordC c then none
      else
        match srcZone q 'g' (s.drop 4) with
        | some (z, path, _) => some ⟨s.take 4 ++ z, path, [q]⟩
        | none => none
    | [] => none
  else none

/-- The double-quoted `<img src="...">` matcher. -/
def tryMatchA : LC → Option MatchRes := tryMatchHtml dqC

/-- The single-quoted `<img src='...'>` matcher. -/
def tryMatchB : LC → Option MatchRes := tryMatchHtml sqC

/-- One fueled step-bounded pass of `re.sub`: scan left to right; at each
position either replace a match (continuing after it) or emit the character.
The fuel only bounds the number of scanning steps (each consumes at least one
character), keeping the recursion structural; `scanSub` below supplies enough
fuel for the whole input, so the fuel-exhausted branch is never taken. -/
def scanSubF (tm : LC → Option MatchRes) (rep : MatchRes → MSt → LC × MSt) :
    Nat → MSt → LC → LC × MSt
  | 0, st, l => (l, st)
  | _ + 1, st, [] => ([], st)
  | fuel + 1, st, c :: rest =>
    match tm (c :: rest) with
    | some m =>
      if 1 ≤ m.len then
        let r := rep m st
        let r2 := scanSubF tm rep fuel r.2 ((c :: rest).drop m.len)
        (r.1 ++ r2.1, r2.2)
      else
        let r := scanSubF tm rep fuel st rest
        (c :: r.1, r.2)
    | none =>
      let r := scanSubF tm rep fuel st rest
      (c :: r.1, r.2)

/-- Generic model of `re.sub`, with fuel for the whole input. -/
def scanSub (tm : LC → Option MatchRes) (rep : MatchRes → MSt → LC × MSt)
    (st : MSt) (l : LC) : LC × MSt :=
  scanSubF tm rep l.length st l

/-- Replacement callback of the three tag substitutions (`_html_double`,
`_html_single`, `_markdown`): rewrite through `_convert_path` when the path
starts with `imgs/` or is absolute, else keep the match verbatim. -/
def repTag (fs : FS) (base : LC) (m : MatchRes) (st : MSt) : LC × MSt :=
  if imgsOrAbs m.g2 then
    let r := convertPathInline fs base m.g2 st
    (m.g1 ++ r.1 ++ m.g3, r.2)
  else (m.g1 ++ m.g2 ++ m.g3, st)

/-- Replacement callback `_to_b64_text` of the bare-quoted `"imgs/..."` regex:
replace by the quoted base64 content when the resolved file exists (reading it
directly, without cache or deletion tracking), else keep the quoted path. -/
def repQuoted (fs : FS) (base : LC) (m : MatchRes) (st : MSt) : LC × MSt :=
  let full := resolvePath base m.g2
  match alookup fs full with
  | some ct => (dqC :: (toBase64 ct ++ [dqC]), { st with readsU := st.readsU ++ [full] })
  | none => (dqC :: (m.g2 ++ [dqC]), st)

/-- Model of `_inline_convert_images_in_text`: the three sequential `re.sub`
passes (double-quoted `<img>`, single-quoted `<img>`, Markdown image). -/
def inlineTextFull (fs : FS) (base : LC) (st : MSt) (s : LC) : LC × MSt :=
  let r1 := scanSub tryMatchA (repTag fs base) st s
  let r2 := scanSub tryMatchB (repTag fs base) r1.2 r1.1
  scanSub tryMatchC (repTag fs base) r2.2 r2.1

/-- Model of `re.sub(r'"(imgs/[^"]+)"', _to_b64_text, s)`. -/
def subQI (fs : FS) (base : LC) (st : MSt) (s : LC) : LC × MSt :=
  scanSub tryMatchQ (repQuoted fs base) st s

/-- JSON values as produced by `json.loads`. -/
inductive J where
  | str (s : LC)
  | num (n : Int)
  | bool (b : Bool)
  | null
  | arr (xs : List J)
  | obj (fields : List (LC × J))

/-- One hexadecimal digit. -/
def hexDigit (n : Nat) : Char := (cs "0123456789abcdef").getD n '0'

/-- JSON string escaping as performed by `json.dumps(..., ensure_ascii=False)`. -/
def escChar (c : Char) : LC :=
  if c = dqC then ['\\', dqC]
  else if c = '\\' then ['\\', '\\']
  else if c = '\n' then ['\\', 'n']
  else if c = '\t' then ['\\', 't']
  else if c = '\r' then ['\\', 'r']
  else if c.toNat = 8 then ['\\', 'b']
  else if c.toNat = 12 then ['\\', 'f']
  else if c.toNat < 32 then ['\\', 'u', '0', '0', hexDigit (c.toNat / 16), hexDigit (c.toNat % 16)]
  else [c]

/-- Escape a whole string. -/
def escapeL : LC → LC
  | [] => []
  | c :: rest => escChar c ++ escapeL rest

mutual
/-- Model of `json.dumps(data, ensure_ascii=False)` with the default
separators `", "` and `": "`. -/
def dumpJ : J → LC
  | .str s => dqC :: (escapeL s ++ [dqC])
  | .num n => cs (toString n)
  | .bool true => cs "true"
  | .bool false => cs "false"
  | .null => cs "null"
  | .arr xs => cs "[" ++ dumpArr xs ++ cs "]"
  | .obj fields => cs "\x7b" ++ dumpObj fields ++ cs "\x7d"

/-- Comma-separated array elements. -/
def dumpArr : List J → LC
  | [] => []
  | [x] => dumpJ x
  | x :: y :: rest => dumpJ x ++ cs ", " ++ dumpArr (y :: rest)

/-- Comma-separated object entries. -/
def dumpObj : List (LC × J) → LC
  | [] => []
  | [kv] => dqC :: (escapeL kv.1 ++ [dqC]) ++ cs ": " ++ dumpJ kv.2
  | kv :: f :: rest => dqC :: (escapeL kv.1 ++ [dqC]) ++ cs ": " ++ dumpJ kv.2 ++ cs ", " ++ dumpObj (f :: rest)
end

/-- Transform one element of a `question_images` / `analysis_images` list
(non-strings are kept as-is, mirroring the `isinstance(p, str)` check). -/
def convPathsElem (fs : FS) (base : LC) (st : MSt) (x : J) : J × MSt :=
  match x with
  | .str p =>
    let r := convertPathBare fs base p st
    (.str r.1, r.2)
  | other => (other, st)

/-- Model of `_convert_paths` over a whole list. -/
def convPathsL (fs : FS) (base : LC) : MSt → List J → List J × MSt
  | st, [] => ([], st)
  | st, x :: xs =>
    let r := convPathsElem fs base st x
    let r2 := convPathsL fs base r.2 xs
    (r.1 :: r2.1, r2.2)

/-- The `question_images` key. -/
def qiK : LC := cs "question_images"

/-- The `analysis_images` key. -/
def aiK : LC := cs "analysis_images"

/-- The `sub_questions` key. -/
def sqK : LC := cs "sub_questions"

mutual
/-- Model of `_transform_item`: convert `question_images` / `analysis_images`
lists, recurse into `sub_questions`, leave everything else (and non-dict
values) untouched. -/
def trItemJ (fs : FS) (base : LC) : MSt → J → J × MSt
  | st, .obj fields =>
    let r := trItemFields fs base st fields
    (.obj r.1, r.2)
  | st, v => (v, st)

/-- Field-wise handling inside `_transform_item` (JSON-parsed dicts have
unique keys, so per-field handling agrees with the source's three sequential
key updates). -/
def trItemFields (fs : FS) (base : LC) : MSt → List (LC × J) → List (LC × J) × MSt
  | st, [] => ([], st)
  | st, (k, v) :: rest =>
    let r1 : J × MSt :=
      if k = qiK ∨ k = aiK then
        match v with
        | .arr xs =>
          let r := convPathsL fs base st xs
          (.arr r.1, r.2)
        | w => (w, st)
      else if k = sqK then
        match v with
        | .arr xs =>
          let r := trItemList fs base st xs
          (.arr r.1, r.2)
        | w => (w, st)
      else (v, st)
    let r2 := trItemFields fs base r1.2 rest
    ((k, r1.1) :: r2.1, r2.2)

/-- `_transform_item` mapped over a `sub_questions` list. -/
def trItemList (fs : FS) (base : LC) : MSt → List J → List J × MSt
  | st, [] => ([], st)
  | st, x :: xs =>
    let r := trItemJ fs base st x
    let r2 := trItemList fs base r.2 xs
    (r.1 :: r2.1, r2.2)
end

mutual
/-- Model of `_transform_strings`: apply `_inline_convert_images_in_text` to
every string leaf, recursing through lists and dict values. -/
def trStrJ (fs : FS) (base : LC) : MSt → J → J × MSt
  | st, .str s =>
    let r := inlineTextFull fs base st s
    (.str r.1, r.2)
  | st, .arr xs =>
    let r := trStrList fs base st xs
    (.arr r.1, r.2)
  | st, .obj fields =>
    let r := trStrFields fs base st fields
    (.obj r.1, r.2)
  | st, v => (v, st)

/-- `_transform_strings` over list elements. -/
def trStrList (fs : FS) (base : LC) : MSt → List J → List J × MSt
  | st, [] => ([], st)
  | st, x :: xs =>
    let r := trStrJ fs base st x
    let r2 := trStrList fs base r.2 xs
    (r.1 :: r2.1, r2.2)

/-- `_transform_strings` over dict entries (keys are not transformed). -/
def trStrFields (fs : FS) (base : LC) : MSt → List (LC × J) → List (LC × J) × MSt
  | st, [] => ([], st)
  | st, (k, v) :: rest =>
    let r := trStrJ fs base st v
    let r2 := trStrFields fs base r.2 rest
    ((k, r.1) :: r2.1, r2.2)
end

/-- Does `pat` occur as a contiguous segment of `s` (Python's `pat in s`)? -/
def containsSeg (pat : LC) : LC → Bool
  | [] => pat.isPrefixOf ([] : LC)
  | c :: rest => pat.isPrefixOf (c :: rest) || containsSeg pat rest

/-- Result of one `convert_images_in_json` invocation: the produced string,
the filesystem after the cleanup loop, the pending-deletion set, and the two
read logs. -/
structure ConvOut where
  out : LC
  fsAfter : FS
  delSet : List LC
  readsC : List LC
  readsU : List LC
deriving DecidableEq

/-- Fresh state of the structured path (`cache = {}`, `to_delete = set()`). -/
def initialCachedSt : MSt := ⟨some [], some [], [], []⟩

/-- State of the unstructured path, where `_inline_convert_images_in_text`
is called with `cache=None, to_delete=None`. -/
def initialPlainSt : MSt := ⟨none, none, [], []⟩

/-- The pending-deletion list of a state. -/
def delListOf (st : MSt) : List LC :=
  match st.toDel with
  | some l => l
  | none => []

/-- Structured pass body of `convert_images_in_json` (JSON parse succeeded):
the item transform followed by the string transform, starting with the fresh
cache and deletion set (a top-level list maps both transforms over its
elements; a top-level dict is transformed as one item; other top-level values
are untouched). -/
def convertStructuredBody (fs : FS) (base : LC) (v : J) : J × MSt :=
  match v with
  | .arr xs =>
    let a := trItemList fs base initialCachedSt xs
    let b := trStrList fs base a.2 a.1
    (.arr b.1, b.2)
  | .obj _ =>
    let a := trItemJ fs base initialCachedSt v
    trStrJ fs base a.2 a.1
  | other => (other, initialCachedSt)

/-- The passes applied to the re-serialized string: the bare-quoted fallback
(guarded by `"imgs/" in s`) followed by the final textual pass. -/
def convertPostPasses (fs : FS) (base : LC) (r1 : J × MSt) : LC × MSt :=
  let s := dumpJ r1.1
  let r2 := if containsSeg imgsT s then subQI fs base r1.2 s else (s, r1.2)
  inlineTextFull fs base r2.2 r2.1

/-- Structured path up to the final string and state. -/
def convertParsedCore (fs : FS) (base : LC) (v : J) : LC × MSt :=
  convertPostPasses fs base (convertStructuredBody fs base v)

/-- Structured path of `convert_images_in_json`, packaging the final string and
state of `convertParsedCore` together with the cleanup loop's effect. -/
def convertParsed (fs : FS) (base : LC) (v : J) : ConvOut :=
  let r3 := convertParsedCore fs base v
  let dels := delListOf r3.2
  { out := r3.1, fsAfter := fsEraseAll fs dels, delSet := dels,
    readsC := r3.2.readsC, readsU := r3.2.readsU }

/-- Unstructured path of `convert_images_in_json` (JSON parse failed): the
textual pass with no cache and no deletion tracking, then the bare-quoted
`"imgs/..."` fallback; nothing is ever deleted on this path. -/
def convertRaw (fs : FS) (base : LC) (s0 : LC) : ConvOut :=
  let r1 := inlineTextFull fs base initialPlainSt s0
  let r2 := subQI fs base r1.2 r1.1
  { out := r2.1, fsAfter := fs, delSet := [], readsC := r2.2.readsC, readsU := r2.2.readsU }

/-- A candidate string together with its `json.loads` outcome: `parsed v`
stands for a string `dumpJ v`-equivalent that parses to `v`, `raw s` for a
string that fails strict JSON parsing.  (`json.loads (json.dumps v) = v` is a
fact of the Python runtime assumed by the embedding.) -/
inductive Candidate where
  | parsed (v : J)
  | raw (s : LC)

/-- Model of `convert_images_in_json`. -/
def convertImagesInJson (fs : FS) (base : LC) : Candidate → ConvOut
  | .parsed v => convertParsed fs base v
  | .raw s => convertRaw fs base s

/-- The input string denoted by a candidate (for the structured case, the
compact serialization of the parsed value, which is exactly the shape a
previous inlining pass emits). -/
def candidateText : Candidate → LC
  | .parsed v => dumpJ v
  | .raw s => s

/-- Python exception classes distinguished by `_map_error_to_status`. -/
inductive PyErr where
  | fileNotFound (msg : String)
  | valueError (msg : String)
  | otherErr (msg : String)
deriving DecidableEq

/-- The message carried by an exception (`str(e)`). -/
def errMsg : PyErr → String
  | .fileNotFound m => m
  | .valueError m => m
  | .otherErr m => m

/-- String-keyed filesystem for the orchestrator / service layer models. -/
abbrev SFS := List (String × String)

/-- Write a file (overwriting any previous content at that path). -/
def awrite (fs : SFS) (p v : String) : SFS := (p, v) :: fs

/-- Model of `os.remove` (best-effort; removing all entries at the path). -/
def aerase (fs : SFS) (p : String) : SFS := fs.filter (fun e => decide (e.1 ≠ p))

/-- One recognized page: the markdown bundle `res.markdown`, carrying its text
and its `markdown_images` map (relative path to image bytes). -/
structure Page where
  text : String
  images : List (String × String)
deriving DecidableEq

/-- External collaborators of `run_unified`, passed in as the shallow embedding
of the recognition engine (`cv2.imread` + `pipeline.predict` +
`concatenate_markdown_pages`), of `extract_content` (which may raise), and of
`convert_images_in_json` as a string transformer. -/
structure Ctx where
  decodeImg : String → Bool
  predictI : String → List Page
  predictP : String → List Page
  concatF : List Page → String
  extractF : String → Except PyErr String
  convertF : String → String

/-- One classified input path, as tested by `p.exists()` / `p.is_dir()` /
`_is_pdf` / `_is_image` (directories come with their sorted image listing from
`_collect_images_from_dir`). -/
inductive Item where
  | missing (p : String)
  | dirI (p : String) (imgs : List String)
  | pdfI (p : String)
  | imageI (p : String)
  | otherI (p : String)
deriving DecidableEq

/-- Pages contributed by one input item (undecodable images are skipped;
files that are neither image nor PDF are skipped by the list branch's
`else: continue`). -/
def pagesOfItem (ctx : Ctx) : Item → List Page
  | .missing _ => []
  | .dirI _ imgs => imgs.foldl (fun acc ip => if ctx.decodeImg ip then acc ++ ctx.predictI ip else acc) []
  | .pdfI p => ctx.predictP p
  | .imageI p => if ctx.decodeImg p then ctx.predictI p else []
  | .otherI _ => []

/-- All pages of a list of items, in input order. -/
def collectPages (ctx : Ctx) (items : List Item) : List Page :=
  items.foldl (fun acc it => acc ++ pagesOfItem ctx it) []

/-- The `p.exists()` filter of the list branch. -/
def isMissing : Item → Bool
  | .missing _ => true
  | _ => false

/-- `valid = [p for p in paths if p.exists()]`. -/
def validItems (items : List Item) : List Item := items.filter (fun it => !isMissing it)

/-- Outcome of one `run_unified` call: the returned string or the raised
exception, the output-directory filesystem afterwards, whether
`extract_content` was invoked, and which intermediate markdown files were
written during the run. -/
structure RunOut where
  result : Except PyErr String
  fsAfter : SFS
  extractCalled : Bool
  mdWritten : List String

/-- `_save_markdown_images`: write every page's assets under the output directory. -/
def savePages (outDir : String) (fs : SFS) (pages : List Page) : SFS :=
  pages.foldl (fun f pg => pg.images.foldl (fun f2 kv => awrite f2 (outDir ++ "/" ++ kv.1) kv.2) f) fs

/-- The tail every successful aggregation shares: call `extract_content`; on
success run `convert_images_in_json` and delete the markdown file; on an
exception let it propagate (the markdown file stays). -/
def finishExtract (ctx : Ctx) (fs1 : SFS) (mdPath texts : String) (written : List String) : RunOut :=
  match ctx.extractF texts with
  | .error e => { result := .error e, fsAfter := fs1, extractCalled := true, mdWritten := written }
  | .ok content =>
    { result := .ok (ctx.convertF content), fsAfter := aerase fs1 mdPath,
      extractCalled := true, mdWritten := written }

/-- `Path(p).name`: the last path segment. -/
def nameOf (p : String) : String :=
  String.mk ((p.toList.reverse.takeWhile (fun c => c ≠ '/')).reverse)

/-- `Path(p).stem`: the last segment without its final extension. -/
def stemOf (p : String) : String :=
  let base := (p.toList.reverse.takeWhile (fun c => c ≠ '/')).reverse
  let rev := base.reverse
  let pre := rev.takeWhile (fun c => c ≠ '.')
  if pre.length < rev.length then String.mk ((rev.drop (pre.length + 1)).reverse)
  else String.mk base

/-- The list branch of `run_unified` (`isinstance(input_arg, list)`). -/
def runListBranch (ctx : Ctx) (items : List Item) (outDir : String) (fs0 : SFS) : RunOut :=
  let valid := validItems items
  if valid = [] then
    { result := .error (.valueError "no valid inputs"), fsAfter := fs0,
      extractCalled := false, mdWritten := [] }
  else
    let pages := collectPages ctx valid
    if pages = [] then
      { result := .error (.valueError "no valid image or pdf content"), fsAfter := fs0,
        extractCalled := false, mdWritten := [] }
    else
      let texts := ctx.concatF pages
      let mdPath := outDir ++ "/combined.md"
      let fs1 := awrite fs0 mdPath texts
      let fs2 := savePages outDir fs1 pages
      finishExtract ctx fs2 mdPath texts [mdPath]

/-- The single-path branch of `run_unified`: note that the three file/dir
sub-branches write the markdown and call `extract_content` even when the
recognition produced zero pages (there is no emptiness check outside the list
branch, apart from the empty-directory case). -/
def runSingle (ctx : Ctx) (item : Item) (outDir : String) (fs0 : SFS) : RunOut :=
  match item with
  | .missing p =>
    { result := .error (.fileNotFound p), fsAfter := fs0, extractCalled := false, mdWritten := [] }
  | .pdfI p =>
    let pages := ctx.predictP p
    let texts := ctx.concatF pages
    let mdPath := outDir ++ "/" ++ stemOf p ++ ".md"
    let fs1 := awrite fs0 mdPath texts
    let fs2 := savePages outDir fs1 pages
    finishExtract ctx fs2 mdPath texts [mdPath]
  | .imageI p =>
    let pages := if ctx.decodeImg p then ctx.predictI p else []
    let texts := ctx.concatF pages
    let mdPath := outDir ++ "/" ++ stemOf p ++ ".md"
    let fs1 := awrite fs0 mdPath texts
    let fs2 := savePages outDir fs1 pages
    finishExtract ctx fs2 mdPath texts [mdPath]
  | .dirI p imgs =>
    if imgs = [] then
      { result := .error (.valueError "no images found in directory"), fsAfter := fs0,
        extractCalled := false, mdWritten := [] }
    else
      let pages := imgs.foldl (fun acc ip => if ctx.decodeImg ip then acc ++ ctx.predictI ip else acc) []
      let mdName :=
        match imgs with
        | [i] => stemOf i ++ ".md"
        | _ => nameOf p ++ ".md"
      let texts := ctx.concatF pages
      let mdPath := outDir ++ "/" ++ mdName
      let fs1 := awrite fs0 mdPath texts
      let fs2 := savePages outDir fs1 pages
      finishExtract ctx fs2 mdPath texts [mdPath]
  | .otherI _ =>
    { result := .error (.valueError "unsupported file type"), fsAfter := fs0,
      extractCalled := false, mdWritten := [] }

/-- Model of `run_unified`: a list input takes the list branch, a single path
the single-path branch. -/
def runUnified (ctx : Ctx) : List Item ⊕ Item → String → SFS → RunOut
  | .inl items, outDir, fs0 => runListBranch ctx items outDir fs0
  | .inr item, outDir, fs0 => runSingle ctx item outDir fs0

/-- Model of `_map_error_to_status`. -/
def mapErrorToStatus : PyErr → Nat
  | .fileNotFound _ => 400
  | .valueError _ => 400
  | .otherErr _ => 500

/-- The parts of the `/parse-docs` JSON response the error-handling claims
talk about. -/
structure ApiResp where
  success : Bool
  status : Nat
  errors : List String
deriving DecidableEq

/-- Model of the `try/except` tail of `parse_docs`: a successful pipeline run
yields a 200 response with empty `errors`; an exception is mapped through
`_map_error_to_status` with `str(e)` in `errors`. -/
def respondParseDocs : Except PyErr String → ApiResp
  | .ok _ => { success := true, status := 200, errors := [] }
  | .error e => { success := false, status := mapErrorToStatus e, errors := [errMsg e] }

/-- One uploaded file as seen by `_save_uploads`. -/
structure Upload where
  filename : Option String
  content : String
deriving DecidableEq

/-- The target filename chosen by `_save_uploads`:
`f.filename or f"file_{idx}"` (Python's `or` also replaces an empty string). -/
def uploadName (idx : Nat) (f : Upload) : String :=
  match f.filename with
  | some n => if n = "" then "file_" ++ toString idx else n
  | none => "file_" ++ toString idx

/-- The saving loop of `_save_uploads`. -/
def saveUploadsGo (rid : String) : Nat → SFS → List Upload → List String × SFS
  | _, fs, [] => ([], fs)
  | idx, fs, f :: rest =>
    let path := "uploads/" ++ rid ++ "/" ++ uploadName idx f
    let fs1 := awrite fs path f.content
    let r := saveUploadsGo rid (idx + 1) fs1 rest
    (path :: r.1, r.2)

/-- Model of `_save_uploads`: write every upload under
`uploads/<request_id>/<filename>` and return the local paths in order. -/
def saveUploads (rid : String) (files : List Upload) (fs : SFS) : List String × SFS :=
  saveUploadsGo rid 0 fs files

/-- The code fence `3 backticks`. -/
def fenceT : LC := cs "```"

/-- Leftmost occurrence split: `findSeg pat s = some (pre, rest)` when
`s = pre ++ pat ++ rest` at the first occurrence of `pat`. -/
def findSeg (pat : LC) : LC → Option (LC × LC)
  | [] => if pat.isPrefixOf ([] : LC) then some ([], []) else none
  | c :: rest =>
    if pat.isPrefixOf (c :: rest) then some ([], (c :: rest).drop pat.length)
    else
      match findSeg pat rest with
      | some r => some (c :: r.1, r.2)
      | none => none

/-- Python `str.strip()`. -/
def trimL (s : LC) : LC := ((s.dropWhile isSpaceC).reverse.dropWhile isSpaceC).reverse

/-- Drop the optional `json` info tag after the opening fence (`(?:json)?`). -/
def dropJsonTag (s : LC) : LC := if (cs "json").isPrefixOf s then s.drop 4 else s

/-- Model of the response post-processing of `extract_content`:
`re.search(r"<fence>(?:json)?\s*([\s\S]*?)<fence>", content)` followed by
`m.group(1).strip()` when a complete fenced block exists, else
`content.strip()`. -/
def extractFencedContent (content : LC) : LC :=
  match findSeg fenceT content with
  | some r =>
    match findSeg fenceT r.2 with
    | some r2 => trimL (dropJsonTag r2.1)
    | none => trimL content
  | none => trimL content

/-- Looking up an erased path yields nothing. -/
theorem alookup_aerase (fs : SFS) (p : String) : alookup (aerase fs p) p = none := by
  induction fs with
  | nil => rfl
  | cons e rest ih =>
    by_cases h : e.1 = p
    · simpa [aerase, List.filter, h] using ih
    · simpa [aerase, List.filter, h, alookup] using ih

/-- After the best-effort deletion loop, every path of the deletion set is gone. -/
theorem alookup_fsEraseAll (fs : FS) (ps : List LC) (p : LC) (hp : p ∈ ps) :
    alookup (fsEraseAll fs ps) p = none := by
  induction fs with
  | nil => rfl
  | cons e rest ih =>
    by_cases h : e.1 ∈ ps
    · simpa [fsEraseAll, List.filter, h] using ih
    · have hne : e.1 ≠ p := fun hEq => h (hEq ▸ hp)
      simpa [fsEraseAll, List.filter, h, alookup, hne] using ih

/-- On a successful extraction the markdown file is erased. -/
theorem finishExtract_clean (ctx : Ctx) (hex : ∀ t, ∃ r, ctx.extractF t = Except.ok r)
    (fs1 : SFS) (mdPath texts : String) :
    ∀ p ∈ (finishExtract ctx fs1 mdPath texts [mdPath]).mdWritten,
      alookup (finishExtract ctx fs1 mdPath texts [mdPath]).fsAfter p = none := by
  intro p hp
  obtain ⟨r, hr⟩ := hex texts
  simp only [finishExtract, hr] at hp ⊢
  simp only [List.mem_singleton] at hp
  subst hp
  exact alookup_aerase fs1 p

/-- claim C3 (amended): in `run_unified`, the intermediate markdown file is
deleted before returning whenever the extraction call returns normally (the
inlining step never raises); if extraction raises, the exception propagates
without the deletion (see the counterexample). -/
theorem claim3_amended_markdown_cleanup (ctx : Ctx) (inp : List Item ⊕ Item) (outDir : String)
    (fs0 : SFS) (hex : ∀ t, ∃ r, ctx.extractF t = Except.ok r) :
    ∀ p ∈ (runUnified ctx inp outDir fs0).mdWritten,
      alookup (runUnified ctx inp outDir fs0).fsAfter p = none := by
  cases inp with
  | inl items =>
    dsimp only [runUnified, runListBranch]
    split
    · intro p hp; simp at hp
    · split
      · intro p hp; simp at hp
      · exact finishExtract_clean ctx hex _ _ _
  | inr item =>
    cases item with
    | missing p0 => intro p hp; simp [runUnified, runSingle] at hp
    | pdfI p0 => exact finishExtract_clean ctx hex _ _ _
    | imageI p0 => exact finishExtract_clean ctx hex _ _ _
    | dirI p0 imgs =>
      dsimp only [runUnified, runSingle]
      split
      · intro p hp; simp at hp
      · exact finishExtract_clean ctx hex _ _ _
    | otherI p0 => intro p hp; simp [runUnified, runSingle] at hp

/-- Concrete collaborators for the C3 counterexample: one decodable page, an
extraction endpoint that raises. -/
def ctx3 : Ctx :=
  { decodeImg := fun _ => true, predictI := fun _ => [⟨"T", []⟩], predictP := fun _ => [],
    concatF := fun ps => String.join (ps.map Page.text),
    extractF := fun _ => .error (.otherErr "extraction raised"), convertF := id }

/-- claim C3 counterexample: when the extraction call raises, `run_unified`
ends with the markdown file still on disk, refuting deletion "on every branch:
whether the extraction call and the inlining step succeed or fail". -/
theorem claim3_counterexample :
    (runUnified ctx3 (.inl [.imageI "a.png"]) "out" []).mdWritten = ["out/combined.md"] ∧
    alookup (runUnified ctx3 (.inl [.imageI "a.png"]) "out" []).fsAfter "out/combined.md" = some "T" ∧
    (runUnified ctx3 (.inl [.imageI "a.png"]) "out" []).result = .error (.otherErr "extraction raised") := by
  refine ⟨rfl, ?_, rfl⟩
  rfl

/-- Closed witness for the amended C3 theorem. -/
def ctx3ok : Ctx := { ctx3 with extractF := fun t => .ok t }

/-- Witness: a run with a succeeding extraction leaves no markdown file behind. -/
theorem claim3_amended_markdown_cleanup_witness :
    ctx3ok.extractF "T" = Except.ok "T" ∧
    alookup (runUnified ctx3ok (.inl [.imageI "a.png"]) "out" []).fsAfter "out/combined.md" = none :=
  ⟨rfl, claim3_amended_markdown_cleanup ctx3ok (.inl [.imageI "a.png"]) "out" []
    (fun t => ⟨t, rfl⟩) "out/combined.md" (by decide)⟩

/-- claim C4 (amended): only the list branch of `run_unified` guards against
zero recognized pages; there it fails with the no-content `ValueError` before
invoking the extraction endpoint, leaving the filesystem untouched. -/
theorem claim4_amended_no_content_guard (ctx : Ctx) (items : List Item) (outDir : String)
    (fs0 : SFS) (hvalid : ¬ validItems items = [])
    (hpages : collectPages ctx (validItems items) = []) :
    runUnified ctx (.inl items) outDir fs0 =
      { result := .error (.valueError "no valid image or pdf content"), fsAfter := fs0,
        extractCalled := false, mdWritten := [] } := by
  dsimp only [runUnified, runListBranch]
  rw [if_neg hvalid, if_pos hpages]

/-- Concrete collaborators for the C4 counterexample: the single image fails to
decode, so recognition yields zero pages. -/
def ctx4 : Ctx :=
  { decodeImg := fun _ => false, predictI := fun _ => [], predictP := fun _ => [],
    concatF := fun _ => "", extractF := fun t => .ok ("E" ++ t), convertF := id }

/-- claim C4 counterexample: on the single-image branch, recognition produces
zero pages, yet `run_unified` still calls the extraction endpoint and returns
normally instead of failing with the no-content error. -/
theorem claim4_counterexample :
    pagesOfItem ctx4 (.imageI "a.png") = [] ∧
    (runUnified ctx4 (.inr (.imageI "a.png")) "out" []).extractCalled = true ∧
    (runUnified ctx4 (.inr (.imageI "a.png")) "out" []).result = .ok "E" := by
  exact ⟨rfl, rfl, rfl⟩

/-- Witness for the amended C4 theorem at a concrete zero-page list input. -/
theorem claim4_amended_no_content_guard_witness :
    runUnified ctx4 (.inl [.imageI "a.png"]) "out" [] =
      { result := .error (.valueError "no valid image or pdf content"), fsAfter := [],
        extractCalled := false, mdWritten := [] } :=
  claim4_amended_no_content_guard ctx4 [.imageI "a.png"] "out" []
    (by decide) rfl

/-- claim C8 (amended): a failure that is neither `ValueError` nor
`FileNotFoundError` (the recognition-engine failure mode) is reported with
HTTP 500 and its message in `errors`; the no-content failure is raised as a
`ValueError` and therefore reported with HTTP 400 (not 500), its message in
`errors`. -/
theorem claim8_amended_status_mapping (msg : String) :
    respondParseDocs (.error (.otherErr msg)) = { success := false, status := 500, errors := [msg] } ∧
    respondParseDocs (.error (.valueError msg)) = { success := false, status := 400, errors := [msg] } ∧
    mapErrorToStatus (.otherErr msg) = 500 ∧ mapErrorToStatus (.valueError msg) = 400 :=
  ⟨rfl, rfl, rfl, rfl⟩

/-- Concrete collaborators for the C8 counterexample. -/
def ctx8 : Ctx :=
  { decodeImg := fun _ => false, predictI := fun _ => [], predictP := fun _ => [],
    concatF := fun _ => "", extractF := fun t => .ok t, convertF := id }

/-- claim C8 counterexample: a request whose pipeline fails with the
no-content error is answered with HTTP 400, not 500. -/
theorem claim8_counterexample :
    respondParseDocs (runUnified ctx8 (.inl [.imageI "a.png"]) "out" []).result =
      { success := false, status := 400, errors := ["no valid image or pdf content"] } ∧
    (respondParseDocs (runUnified ctx8 (.inl [.imageI "a.png"]) "out" []).result).status ≠ 500 := by
  refine ⟨rfl, ?_⟩
  decide

/-- claim C10: two uploads carrying the same (non-empty) filename are saved to
the same `uploads/<request_id>/<filename>` path; the second write overwrites
the first, the returned path list repeats the one path, and the pipeline
receives one distinct file for two uploads; `_save_uploads` signals nothing. -/
theorem claim10_duplicate_upload_overwrite (fs0 : SFS) (rid n c1 c2 : String) (hn : ¬ n = "") :
    (saveUploads rid [⟨some n, c1⟩, ⟨some n, c2⟩] fs0).1 =
      ["uploads/" ++ rid ++ "/" ++ n, "uploads/" ++ rid ++ "/" ++ n] ∧
    alookup (saveUploads rid [⟨some n, c1⟩, ⟨some n, c2⟩] fs0).2 ("uploads/" ++ rid ++ "/" ++ n) =
      some c2 ∧
    ((saveUploads rid [⟨some n, c1⟩, ⟨some n, c2⟩] fs0).1).dedup =
      ["uploads/" ++ rid ++ "/" ++ n] ∧
    ([(⟨some n, c1⟩ : Upload), ⟨some n, c2⟩]).length = 2 := by
  refine ⟨?_, ?_, ?_, rfl⟩
  · simp [saveUploads, saveUploadsGo, uploadName, hn]
  · simp [saveUploads, saveUploadsGo, uploadName, hn, awrite, alookup]
  · simp [saveUploads, saveUploadsGo, uploadName, hn, List.dedup]

/-- Witness for C10 at a concrete duplicate filename. -/
theorem claim10_duplicate_upload_overwrite_witness :
    (saveUploads "r" [⟨some "a.png", "x"⟩, ⟨some "a.png", "y"⟩] []).1 =
      ["uploads/" ++ "r" ++ "/" ++ "a.png", "uploads/" ++ "r" ++ "/" ++ "a.png"] ∧
    alookup (saveUploads "r" [⟨some "a.png", "x"⟩, ⟨some "a.png", "y"⟩] []).2
      ("uploads/" ++ "r" ++ "/" ++ "a.png") = some "y" ∧
    ((saveUploads "r" [⟨some "a.png", "x"⟩, ⟨some "a.png", "y"⟩] []).1).dedup =
      ["uploads/" ++ "r" ++ "/" ++ "a.png"] ∧
    ([(⟨some "a.png", "x"⟩ : Upload), ⟨some "a.png", "y"⟩]).length = 2 :=
  claim10_duplicate_upload_overwrite [] "r" "a.png" "x" "y" (by decide)

/-- Concrete filesystem for the C1 counterexample. -/
def fsC1 : FS := [(cs "out/imgs/a.png", cs "ABC")]

/-- claim C1 counterexample: on the unstructured path (parse failed), the file
`out/imgs/a.png` is read and base64-encoded by the bare-quoted fallback, yet
the pending-deletion set stays empty and the file is still on disk after the
final string is produced. -/
theorem claim1_counterexample :
    (convertImagesInJson fsC1 (cs "out") (.raw (cs "x \"imgs/a.png\" y"))).readsU =
      [cs "out/imgs/a.png"] ∧
    (convertImagesInJson fsC1 (cs "out") (.raw (cs "x \"imgs/a.png\" y"))).delSet = [] ∧
    alookup (convertImagesInJson fsC1 (cs "out") (.raw (cs "x \"imgs/a.png\" y"))).fsAfter
      (cs "out/imgs/a.png") = some (cs "ABC") := by
  refine ⟨?_, rfl, ?_⟩ <;> rfl

/-- Concrete filesystem for the C2 counterexample. -/
def fsC2 : FS := [(cs "out/imgs/a.png", cs "ABC")]

/-- claim C2 counterexample: a structured pass over valid JSON referencing the
same local file twice as bare quoted strings reads (and encodes) the file
twice, because the bare-quoted fallback bypasses the cache: the uncached read
log holds the same resolved path twice. -/
theorem claim2_counterexample :
    (convertImagesInJson fsC2 (cs "out")
        (.parsed (.arr [.str (cs "imgs/a.png"), .str (cs "imgs/a.png")]))).readsU =
      [cs "out/imgs/a.png", cs "out/imgs/a.png"] ∧
    (convertImagesInJson fsC2 (cs "out")
        (.parsed (.arr [.str (cs "imgs/a.png"), .str (cs "imgs/a.png")]))).readsC = [] := by
  exact ⟨rfl, rfl⟩

/-- The atomic state changes performed anywhere inside one inlining pass:
a cache-miss read (recorded and inserted into the cache), an uncached read
(recorded only), and a pending-deletion insertion (which the code only performs
for a path whose payload is available, i.e. with no cache or with the path
already cached). -/
inductive StStep : MSt → MSt → Prop
  | readMiss (st : MSt) (m : List (LC × LC)) (full b : LC)
      (hc : st.cache = some m) (hm : alookup m full = none) :
      StStep st { st with cache := some ((full, b) :: m), readsC := st.readsC ++ [full] }
  | readPlain (st : MSt) (full : LC) :
      StStep st { st with readsU := st.readsU ++ [full] }
  | delAdd (st : MSt) (full : LC)
      (h : st.cache = none ∨ ∃ m, st.cache = some m ∧ (alookup m full).isSome) :
      StStep st (addDel st full)

/-- Reachability by atomic state changes. -/
def Reach : MSt → MSt → Prop := Relation.ReflTransGen StStep

/-- The cache-coherence invariant of a structured pass: the cache and deletion
set are present, every cached path and every pending-deletion path has been
read (through the cache), and no path was read through the cache twice. -/
def InvS (st : MSt) : Prop :=
  ∃ m l, st.cache = some m ∧ st.toDel = some l ∧ st.readsC.Nodup ∧
    (∀ p, (alookup m p).isSome → p ∈ st.readsC) ∧
    (∀ p, p ∈ l → p ∈ st.readsC) ∧
    (∀ p, p ∈ st.readsC → (alookup m p).isSome)

/-- Each atomic step preserves the invariant. -/
theorem InvS_step {st st' : MSt} (h : StStep st st') (hi : InvS st) : InvS st' := by
  obtain ⟨m, l, h1, h2, h3, h4, h5, h6⟩ := hi
  cases h with
  | readMiss m' full b hc hm =>
    rw [h1] at hc
    injection hc with hc
    subst hc
    refine ⟨(full, b) :: m, l, rfl, h2, ?_, ?_, ?_, ?_⟩
    · rw [List.nodup_append]
      refine ⟨h3, List.nodup_singleton _, ?_⟩
      intro p hp hp'
      rw [List.mem_singleton] at hp'
      subst hp'
      have := h6 p hp
      rw [hm] at this
      simp at this
    · intro p hp
      by_cases hpf : full = p
      · subst hpf; simp
      · simp only [alookup, if_neg hpf] at hp
        exact List.mem_append_left _ (h4 p hp)
    · intro p hp
      exact List.mem_append_left _ (h5 p hp)
    · intro p hp
      rcases List.mem_append.mp hp with hp | hp
      · have := h6 p hp
        by_cases hpf : full = p
        · subst hpf; simp [alookup]
        · simpa [alookup, if_neg hpf] using this
      · rw [List.mem_singleton] at hp
        subst hp
        simp [alookup]
  | readPlain full =>
    exact ⟨m, l, h1, h2, h3, h4, h5, h6⟩
  | delAdd full hdel =>
    rcases hdel with hnone | ⟨m', hm', hsome⟩
    · rw [h1] at hnone; cases hnone
    · rw [h1] at hm'
      injection hm' with hm'
      subst hm'
      have hfr : full ∈ st.readsC := h4 full hsome
      have hd : addDel st full = { st with toDel := some (if full ∈ l then l else l ++ [full]) } := by
        simp [addDel, h2]
      rw [hd]
      refine ⟨m, (if full ∈ l then l else l ++ [full]), h1, rfl, h3, h4, ?_, h6⟩
      · intro p hp
        by_cases hmem : full ∈ l
        · rw [if_pos hmem] at hp; exact h5 p hp
        · rw [if_neg hmem] at hp
          rcases List.mem_append.mp hp with hp | hp
          · exact h5 p hp
          · rw [List.mem_singleton] at hp; subst hp; exact hfr

/-- The invariant is preserved along any reachable state change. -/
theorem InvS_reach {st st' : MSt} (h : Reach st st') (hi : InvS st) : InvS st' := by
  induction h with
  | refl => exact hi
  | tail _ hstep ih => exact InvS_step hstep ih

/-- The fresh structured-pass state satisfies the invariant. -/
theorem InvS_initial : InvS initialCachedSt := by
  refine ⟨[], [], rfl, rfl, List.nodup_nil, ?_, ?_, ?_⟩ <;> intro p hp <;>
    simp [initialCachedSt, alookup] at hp

/-- `obtainB64` only performs atomic state changes. -/
theorem reach_obtainB64 (ct full : LC) (st : MSt) : Reach st (obtainB64 ct full st).2.1 := by
  obtain ⟨cOpt, tOpt, rC, rU⟩ := st
  cases cOpt with
  | none => exact Relation.ReflTransGen.single (StStep.readPlain _ full)
  | some m =>
    have hred : obtainB64 ct full ⟨some m, tOpt, rC, rU⟩ =
        match alookup m full with
        | some b => (b, ⟨some m, tOpt, rC, rU⟩, false)
        | none => (toBase64 ct, ⟨some ((full, toBase64 ct) :: m), tOpt, rC ++ [full], rU⟩, true) := rfl
    rw [hred]
    cases hm : alookup m full with
    | some b => exact Relation.ReflTransGen.refl
    | none => exact Relation.ReflTransGen.single (StStep.readMiss _ m full (toBase64 ct) rfl hm)

/-- After `obtainB64`, the payload for `full` is available: either there is no
cache, or `full` is in the cache. -/
theorem obtainB64_cache_ok (ct full : LC) (st : MSt) :
    (obtainB64 ct full st).2.1.cache = none ∨
      ∃ m, (obtainB64 ct full st).2.1.cache = some m ∧ (alookup m full).isSome := by
  obtain ⟨cOpt, tOpt, rC, rU⟩ := st
  cases cOpt with
  | none => exact Or.inl rfl
  | some m =>
    have hred : obtainB64 ct full ⟨some m, tOpt, rC, rU⟩ =
        match alookup m full with
        | some b => (b, ⟨some m, tOpt, rC, rU⟩, false)
        | none => (toBase64 ct, ⟨some ((full, toBase64 ct) :: m), tOpt, rC ++ [full], rU⟩, true) := rfl
    rw [hred]
    cases hm : alookup m full with
    | some b => exact Or.inr ⟨m, rfl, by simp [hm]⟩
    | none => exact Or.inr ⟨(full, toBase64 ct) :: m, rfl, by simp [alookup]⟩

/-- `_convert_paths`' per-element step only performs atomic state changes. -/
theorem reach_convertPathBare (fs : FS) (base p : LC) (st : MSt) :
    Reach st (convertPathBare fs base p st).2 := by
  unfold convertPathBare
  split
  · exact Relation.ReflTransGen.refl
  · cases hl : alookup fs (resolvePath base p) with
    | some ct =>
      dsimp only
      rw [hl]
      dsimp only
      by_cases hb : (obtainB64 ct (resolvePath base p) st).2.2 = true
      · rw [if_pos hb]
        refine Relation.ReflTransGen.tail (reach_obtainB64 ct (resolvePath base p) st) ?_
        exact StStep.delAdd _ _ (obtainB64_cache_ok ct (resolvePath base p) st)
      · rw [if_neg hb]
        exact reach_obtainB64 ct (resolvePath base p) st
    | none =>
      dsimp only
      rw [hl]
      exact Relation.ReflTransGen.refl

/-- `_convert_path` (inline variant) only performs atomic state changes. -/
theorem reach_convertPathInline (fs : FS) (base p : LC) (st : MSt) :
    Reach st (convertPathInline fs base p st).2 := by
  unfold convertPathInline
  split
  · exact Relation.ReflTransGen.refl
  · cases hl : alookup fs (resolvePath base p) with
    | some ct =>
      dsimp only
      rw [hl]
      dsimp only
      refine Relation.ReflTransGen.tail (reach_obtainB64 ct (resolvePath base p) st) ?_
      exact StStep.delAdd _ _ (obtainB64_cache_ok ct (resolvePath base p) st)
    | none =>
      dsimp only
      rw [hl]
      exact Relation.ReflTransGen.refl

/-- The tag replacement callback only performs atomic state changes. -/
theorem reach_repTag (fs : FS) (base : LC) (m : MatchRes) (st : MSt) :
    Reach st (repTag fs base m st).2 := by
  unfold repTag
  split
  · exact reach_convertPathInline fs base m.g2 st
  · exact Relation.ReflTransGen.refl

/-- The bare-quoted replacement callback only performs atomic state changes. -/
theorem reach_repQuoted (fs : FS) (base : LC) (m : MatchRes) (st : MSt) :
    Reach st (repQuoted fs base m st).2 := by
  unfold repQuoted
  dsimp only
  cases hl : alookup fs (resolvePath base m.g2) with
  | some ct =>
    exact Relation.ReflTransGen.single (StStep.readPlain st _)
  | none =>
    exact Relation.ReflTransGen.refl

/-- A fueled substitution pass only performs its callback's state changes. -/
theorem reach_scanSubF (tm : LC → Option MatchRes) (rep : MatchRes → MSt → LC × MSt)
    (hrep : ∀ m st, Reach st (rep m st).2) :
    ∀ (fuel : Nat) (l : LC) (st : MSt), Reach st (scanSubF tm rep fuel st l).2 := by
  intro fuel
  induction fuel with
  | zero => intro l st; exact Relation.ReflTransGen.refl
  | succ fuel ih =>
    intro l st
    cases l with
    | nil => exact Relation.ReflTransGen.refl
    | cons c rest =>
      simp only [scanSubF]
      cases htm : tm (c :: rest) with
      | some m =>
        dsimp only
        by_cases hlen : 1 ≤ m.len
        · rw [if_pos hlen]
          exact Relation.ReflTransGen.trans (hrep m st) (ih _ _)
        · rw [if_neg hlen]
          exact ih rest st
      | none =>
        exact ih rest st

/-- One whole `re.sub` pass only performs its callback's state changes. -/
theorem reach_scanSub (tm : LC → Option MatchRes) (rep : MatchRes → MSt → LC × MSt)
    (hrep : ∀ m st, Reach st (rep m st).2) (st : MSt) (l : LC) :
    Reach st (scanSub tm rep st l).2 :=
  reach_scanSubF tm rep hrep l.length l st

/-- The three-pass textual inliner only performs atomic state changes. -/
theorem reach_inlineTextFull (fs : FS) (base : LC) (st : MSt) (s : LC) :
    Reach st (inlineTextFull fs base st s).2 := by
  unfold inlineTextFull
  exact Relation.ReflTransGen.trans
    (Relation.ReflTransGen.trans
      (reach_scanSub tryMatchA (repTag fs base) (reach_repTag fs base) st s)
      (reach_scanSub tryMatchB (repTag fs base) (reach_repTag fs base) _ _))
    (reach_scanSub tryMatchC (repTag fs base) (reach_repTag fs base) _ _)

/-- The bare-quoted fallback only performs atomic state changes. -/
theorem reach_subQI (fs : FS) (base : LC) (st : MSt) (s : LC) :
    Reach st (subQI fs base st s).2 :=
  reach_scanSub _ _ (reach_repQuoted fs base) st s

/-- `_convert_paths` only performs atomic state changes. -/
theorem reach_convPathsL (fs : FS) (base : LC) :
    ∀ (xs : List J) (st : MSt), Reach st (convPathsL fs base st xs).2 := by
  intro xs
  induction xs with
  | nil => intro st; exact Relation.ReflTransGen.refl
  | cons x rest ih =>
    intro st
    simp only [convPathsL]
    refine Relation.ReflTransGen.trans ?_ (ih _)
    unfold convPathsElem
    cases x with
    | str p => exact reach_convertPathBare fs base p st
    | num n => exact Relation.ReflTransGen.refl
    | bool b => exact Relation.ReflTransGen.refl
    | null => exact Relation.ReflTransGen.refl
    | arr l => exact Relation.ReflTransGen.refl
    | obj l => exact Relation.ReflTransGen.refl

/-- Joint size-bounded statement: the `_transform_item` walk only performs
atomic state changes. -/
theorem reach_trItem_all (fs : FS) (base : LC) : ∀ n : Nat,
    (∀ (st : MSt) (v : J), sizeOf v ≤ n → Reach st (trItemJ fs base st v).2) ∧
    (∀ (st : MSt) (fl : List (LC × J)), sizeOf fl ≤ n → Reach st (trItemFields fs base st fl).2) ∧
    (∀ (st : MSt) (xs : List J), sizeOf xs ≤ n → Reach st (trItemList fs base st xs).2) := by
  intro n
  induction n using Nat.strong_induction_on with
  | _ n ih =>
    refine ⟨?_, ?_, ?_⟩
    · intro st v hv
      cases v with
      | obj fields =>
        have hlt : sizeOf fields < n := by
          have := hv; simp only [J.obj.sizeOf_spec] at this; omega
        simp only [trItemJ]
        exact (ih (sizeOf fields) hlt).2.1 st fields le_rfl
      | str s => exact Relation.ReflTransGen.refl
      | num k => exact Relation.ReflTransGen.refl
      | bool b => exact Relation.ReflTransGen.refl
      | null => exact Relation.ReflTransGen.refl
      | arr xs => exact Relation.ReflTransGen.refl
    · intro st fl hfl
      cases fl with
      | nil => exact Relation.ReflTransGen.refl
      | cons kv rest =>
        obtain ⟨k, v⟩ := kv
        have hsz : sizeOf v < n ∧ sizeOf rest < n := by
          have := hfl
          simp only [List.cons.sizeOf_spec, Prod.mk.sizeOf_spec] at this
          omega
        have hrest : ∀ st', Reach st' (trItemFields fs base st' rest).2 :=
          fun st' => (ih (sizeOf rest) hsz.2).2.1 st' rest le_rfl
        rw [trItemFields.eq_def]
        dsimp only
        refine Relation.ReflTransGen.trans ?_ (hrest _)
        split
        · split
          · rename_i xs
            exact reach_convPathsL fs base xs st
          · exact Relation.ReflTransGen.refl
        · split
          · split
            · rename_i xs
              have hxs : sizeOf xs < n := by
                have h5 := hsz.1
                simp only [J.arr.sizeOf_spec] at h5
                omega
              exact (ih (sizeOf xs) hxs).2.2 st xs le_rfl
            · exact Relation.ReflTransGen.refl
          · exact Relation.ReflTransGen.refl
    · intro st xs hxs
      cases xs with
      | nil => exact Relation.ReflTransGen.refl
      | cons x rest =>
        have hsz : sizeOf x < n ∧ sizeOf rest < n := by
          have := hxs; simp only [List.cons.sizeOf_spec] at this; omega
        simp only [trItemList]
        exact Relation.ReflTransGen.trans
          ((ih (sizeOf x) hsz.1).1 st x le_rfl)
          ((ih (sizeOf rest) hsz.2).2.2 _ rest le_rfl)

/-- The `_transform_item` walk only performs atomic state changes. -/
theorem reach_trItemJ (fs : FS) (base : LC) (st : MSt) (v : J) :
    Reach st (trItemJ fs base st v).2 :=
  (reach_trItem_all fs base (sizeOf v)).1 st v le_rfl

/-- The `_transform_item` walk over a list only performs atomic state changes. -/
theorem reach_trItemList (fs : FS) (base : LC) (st : MSt) (xs : List J) :
    Reach st (trItemList fs base st xs).2 :=
  (reach_trItem_all fs base (sizeOf xs)).2.2 st xs le_rfl

/-- Joint size-bounded statement: the `_transform_strings` walk only performs
atomic state changes. -/
theorem reach_trStr_all (fs : FS) (base : LC) : ∀ n : Nat,
    (∀ (st : MSt) (v : J), sizeOf v ≤ n → Reach st (trStrJ fs base st v).2) ∧
    (∀ (st : MSt) (fl : List (LC × J)), sizeOf fl ≤ n → Reach st (trStrFields fs base st fl).2) ∧
    (∀ (st : MSt) (xs : List J), sizeOf xs ≤ n → Reach st (trStrList fs base st xs).2) := by
  intro n
  induction n using Nat.strong_induction_on with
  | _ n ih =>
    refine ⟨?_, ?_, ?_⟩
    · intro st v hv
      cases v with
      | obj fields =>
        have hlt : sizeOf fields < n := by
          have := hv; simp only [J.obj.sizeOf_spec] at this; omega
        simp only [trStrJ]
        exact (ih (sizeOf fields) hlt).2.1 st fields le_rfl
      | arr xs =>
        have hlt : sizeOf xs < n := by
          have := hv; simp only [J.arr.sizeOf_spec] at this; omega
        simp only [trStrJ]
        exact (ih (sizeOf xs) hlt).2.2 st xs le_rfl
      | str s =>
        simp only [trStrJ]
        exact reach_inlineTextFull fs base st s
      | num k => exact Relation.ReflTransGen.refl
      | bool b => exact Relation.ReflTransGen.refl
      | null => exact Relation.ReflTransGen.refl
    · intro st fl hfl
      cases fl with
      | nil => exact Relation.ReflTransGen.refl
      | cons kv rest =>
        obtain ⟨k, v⟩ := kv
        have hsz : sizeOf v < n ∧ sizeOf rest < n := by
          have := hfl
          simp only [List.cons.sizeOf_spec, Prod.mk.sizeOf_spec] at this
          omega
        simp only [trStrFields]
        exact Relation.ReflTransGen.trans
          ((ih (sizeOf v) hsz.1).1 st v le_rfl)
          ((ih (sizeOf rest) hsz.2).2.1 _ rest le_rfl)
    · intro st xs hxs
      cases xs with
      | nil => exact Relation.ReflTransGen.refl
      | cons x rest =>
        have hsz : sizeOf x < n ∧ sizeOf rest < n := by
          have := hxs; simp only [List.cons.sizeOf_spec] at this; omega
        simp only [trStrList]
        exact Relation.ReflTransGen.trans
          ((ih (sizeOf x) hsz.1).1 st x le_rfl)
          ((ih (sizeOf rest) hsz.2).2.2 _ rest le_rfl)

/-- The `_transform_strings` walk only performs atomic state changes. -/
theorem reach_trStrJ (fs : FS) (base : LC) (st : MSt) (v : J) :
    Reach st (trStrJ fs base st v).2 :=
  (reach_trStr_all fs base (sizeOf v)).1 st v le_rfl

/-- The `_transform_strings` walk over a list only performs atomic changes. -/
theorem reach_trStrList (fs : FS) (base : LC) (st : MSt) (xs : List J) :
    Reach st (trStrList fs base st xs).2 :=
  (reach_trStr_all fs base (sizeOf xs)).2.2 st xs le_rfl

/-- The whole structured pass only performs atomic state changes, starting
from the fresh cached state. -/
theorem reach_convertStructuredBody (fs : FS) (base : LC) (v : J) :
    Reach initialCachedSt (convertStructuredBody fs base v).2 := by
  unfold convertStructuredBody
  cases v with
  | arr xs =>
    exact Relation.ReflTransGen.trans (reach_trItemList fs base initialCachedSt xs)
      (reach_trStrList fs base _ _)
  | obj fields =>
    exact Relation.ReflTransGen.trans (reach_trItemJ fs base initialCachedSt _)
      (reach_trStrJ fs base _ _)
  | str s => exact Relation.ReflTransGen.refl
  | num k => exact Relation.ReflTransGen.refl
  | bool b => exact Relation.ReflTransGen.refl
  | null => exact Relation.ReflTransGen.refl

/-- The post-serialization passes only perform atomic state changes. -/
theorem reach_convertPostPasses (fs : FS) (base : LC) (r1 : J × MSt) :
    Reach r1.2 (convertPostPasses fs base r1).2 := by
  unfold convertPostPasses
  dsimp only
  refine Relation.ReflTransGen.trans ?_ (reach_inlineTextFull fs base _ _)
  split
  · exact reach_subQI fs base _ _
  · exact Relation.ReflTransGen.refl

/-- The whole structured pass only performs atomic state changes, starting
from the fresh cached state. -/
theorem reach_convertParsedCore (fs : FS) (base : LC) (v : J) :
    Reach initialCachedSt (convertParsedCore fs base v).2 :=
  Relation.ReflTransGen.trans (reach_convertStructuredBody fs base v)
    (reach_convertPostPasses fs base _)

/-- The final state of a structured pass satisfies the cache invariant. -/
theorem convertParsedCore_InvS (fs : FS) (base : LC) (v : J) :
    InvS (convertParsedCore fs base v).2 :=
  InvS_reach (reach_convertParsedCore fs base v) InvS_initial

/-- Read-coverage property of the structured pass: the deletion set is present
and every path read through the cache has been added to it (both converters
add the path to `to_delete` whenever they actually read the file). -/
def Cov (st : MSt) : Prop :=
  ∃ l, st.toDel = some l ∧ ∀ p, p ∈ st.readsC → p ∈ l

/-- `addDel` grows the present deletion set by (at most) the given path and
touches nothing else. -/
theorem addDel_spec (st : MSt) (l : List LC) (h : st.toDel = some l) (full : LC) :
    ∃ l', (addDel st full).toDel = some l' ∧ full ∈ l' ∧ (∀ q, q ∈ l → q ∈ l') ∧
      (addDel st full).readsC = st.readsC := by
  unfold addDel
  rw [h]
  dsimp only
  by_cases hf : full ∈ l
  · rw [if_pos hf]
    exact ⟨l, rfl, hf, fun q hq => hq, rfl⟩
  · rw [if_neg hf]
    exact ⟨l ++ [full], rfl, by simp, fun q hq => by simp [hq], rfl⟩

/-- `obtainB64` keeps the deletion set, and extends the cached-read log by the
read path exactly when it reports a cache miss. -/
theorem obtainB64_fields (ct full : LC) (st : MSt) :
    (obtainB64 ct full st).2.1.toDel = st.toDel ∧
    ((obtainB64 ct full st).2.1.readsC = st.readsC ∨
      ((obtainB64 ct full st).2.2 = true ∧
        (obtainB64 ct full st).2.1.readsC = st.readsC ++ [full])) := by
  obtain ⟨cOpt, tOpt, rC, rU⟩ := st
  cases cOpt with
  | none => exact ⟨rfl, Or.inl rfl⟩
  | some m =>
    have hred : obtainB64 ct full ⟨some m, tOpt, rC, rU⟩ =
        match alookup m full with
        | some b => (b, ⟨some m, tOpt, rC, rU⟩, false)
        | none => (toBase64 ct, ⟨some ((full, toBase64 ct) :: m), tOpt, rC ++ [full], rU⟩, true) := rfl
    rw [hred]
    cases hm : alookup m full with
    | some b => exact ⟨rfl, Or.inl rfl⟩
    | none => exact ⟨rfl, Or.inr ⟨rfl, rfl⟩⟩

/-- `_convert_paths`' per-element step keeps cached reads covered: it adds the
path to the deletion set exactly in its cache-miss (read) branch. -/
theorem cov_convertPathBare (fs : FS) (base p : LC) (st : MSt) (h : Cov st) :
    Cov (convertPathBare fs base p st).2 := by
  unfold convertPathBare
  split
  · exact h
  · cases hl : alookup fs (resolvePath base p) with
    | some ct =>
      dsimp only
      rw [hl]
      dsimp only
      obtain ⟨hTD, hRC⟩ := obtainB64_fields ct (resolvePath base p) st
      obtain ⟨l, htd, hsub⟩ := h
      by_cases hb : (obtainB64 ct (resolvePath base p) st).2.2 = true
      · rw [if_pos hb]
        obtain ⟨l', h1, h2, h3, h4⟩ :=
          addDel_spec (obtainB64 ct (resolvePath base p) st).2.1 l (by rw [hTD]; exact htd)
            (resolvePath base p)
        refine ⟨l', h1, ?_⟩
        intro q hq
        rw [h4] at hq
        rcases hRC with hrc | ⟨_, hrc⟩
        · rw [hrc] at hq
          exact h3 q (hsub q hq)
        · rw [hrc] at hq
          rcases List.mem_append.mp hq with hq | hq
          · exact h3 q (hsub q hq)
          · rw [List.mem_singleton] at hq
            rw [hq]
            exact h2
      · rw [if_neg hb]
        refine ⟨l, by rw [hTD]; exact htd, ?_⟩
        intro q hq
        rcases hRC with hrc | ⟨hfl, hrc⟩
        · rw [hrc] at hq
          exact hsub q hq
        · exact absurd hfl hb
    | none =>
      dsimp only
      rw [hl]
      exact h

/-- `_convert_path` (inline variant) keeps cached reads covered: it adds the
path to the deletion set on every existing-file branch, covering its reads. -/
theorem cov_convertPathInline (fs : FS) (base p : LC) (st : MSt) (h : Cov st) :
    Cov (convertPathInline fs base p st).2 := by
  unfold convertPathInline
  split
  · exact h
  · cases hl : alookup fs (resolvePath base p) with
    | some ct =>
      dsimp only
      rw [hl]
      dsimp only
      obtain ⟨hTD, hRC⟩ := obtainB64_fields ct (resolvePath base p) st
      obtain ⟨l, htd, hsub⟩ := h
      obtain ⟨l', h1, h2, h3, h4⟩ :=
        addDel_spec (obtainB64 ct (resolvePath base p) st).2.1 l (by rw [hTD]; exact htd)
          (resolvePath base p)
      refine ⟨l', h1, ?_⟩
      intro q hq
      rw [h4] at hq
      rcases hRC with hrc | ⟨_, hrc⟩
      · rw [hrc] at hq
        exact h3 q (hsub q hq)
      · rw [hrc] at hq
        rcases List.mem_append.mp hq with hq | hq
        · exact h3 q (hsub q hq)
        · rw [List.mem_singleton] at hq
          rw [hq]
          exact h2
    | none =>
      dsimp only
      rw [hl]
      exact h

/-- The tag replacement callback keeps cached reads covered. -/
theorem cov_repTag (fs : FS) (base : LC) (m : MatchRes) (st : MSt) (h : Cov st) :
    Cov (repTag fs base m st).2 := by
  unfold repTag
  split
  · exact cov_convertPathInline fs base m.g2 st h
  · exact h

/-- The bare-quoted replacement callback keeps cached reads covered (it only
touches the uncached-read log). -/
theorem cov_repQuoted (fs : FS) (base : LC) (m : MatchRes) (st : MSt) (h : Cov st) :
    Cov (repQuoted fs base m st).2 := by
  unfold repQuoted
  dsimp only
  cases hl : alookup fs (resolvePath base m.g2) with
  | some ct => exact h
  | none => exact h

/-- A fueled substitution pass keeps cached reads covered when its callback
does. -/
theorem cov_scanSubF (tm : LC → Option MatchRes) (rep : MatchRes → MSt → LC × MSt)
    (hrep : ∀ m st, Cov st → Cov (rep m st).2) :
    ∀ (fuel : Nat) (l : LC) (st : MSt), Cov st → Cov (scanSubF tm rep fuel st l).2 := by
  intro fuel
  induction fuel with
  | zero => intro l st h; exact h
  | succ fuel ih =>
    intro l st h
    cases l with
    | nil => exact h
    | cons c rest =>
      simp only [scanSubF]
      cases htm : tm (c :: rest) with
      | some m =>
        dsimp only
        by_cases hlen : 1 ≤ m.len
        · rw [if_pos hlen]
          exact ih _ _ (hrep m st h)
        · rw [if_neg hlen]
          exact ih rest st h
      | none =>
        exact ih rest st h

/-- One whole `re.sub` pass keeps cached reads covered. -/
theorem cov_scanSub (tm : LC → Option MatchRes) (rep : MatchRes → MSt → LC × MSt)
    (hrep : ∀ m st, Cov st → Cov (rep m st).2) (st : MSt) (l : LC) (h : Cov st) :
    Cov (scanSub tm rep st l).2 :=
  cov_scanSubF tm rep hrep l.length l st h

/-- The three-pass textual inliner keeps cached reads covered. -/
theorem cov_inlineTextFull (fs : FS) (base : LC) (st : MSt) (s : LC) (h : Cov st) :
    Cov (inlineTextFull fs base st s).2 := by
  unfold inlineTextFull
  exact cov_scanSub tryMatchC (repTag fs base) (cov_repTag fs base) _ _
    (cov_scanSub tryMatchB (repTag fs base) (cov_repTag fs base) _ _
      (cov_scanSub tryMatchA (repTag fs base) (cov_repTag fs base) st s h))

/-- The bare-quoted fallback keeps cached reads covered. -/
theorem cov_subQI (fs : FS) (base : LC) (st : MSt) (s : LC) (h : Cov st) :
    Cov (subQI fs base st s).2 :=
  cov_scanSub _ _ (cov_repQuoted fs base) st s h

/-- `_convert_paths` keeps cached reads covered. -/
theorem cov_convPathsL (fs : FS) (base : LC) :
    ∀ (xs : List J) (st : MSt), Cov st → Cov (convPathsL fs base st xs).2 := by
  intro xs
  induction xs with
  | nil => intro st h; exact h
  | cons x rest ih =>
    intro st h
    simp only [convPathsL]
    refine ih _ ?_
    unfold convPathsElem
    cases x with
    | str p => exact cov_convertPathBare fs base p st h
    | num n => exact h
    | bool b => exact h
    | null => exact h
    | arr l => exact h
    | obj l => exact h

/-- Joint size-bounded statement: the `_transform_item` walk keeps cached
reads covered. -/
theorem cov_trItem_all (fs : FS) (base : LC) : ∀ n : Nat,
    (∀ (st : MSt) (v : J), sizeOf v ≤ n → Cov st → Cov (trItemJ fs base st v).2) ∧
    (∀ (st : MSt) (fl : List (LC × J)), sizeOf fl ≤ n → Cov st →
      Cov (trItemFields fs base st fl).2) ∧
    (∀ (st : MSt) (xs : List J), sizeOf xs ≤ n → Cov st →
      Cov (trItemList fs base st xs).2) := by
  intro n
  induction n using Nat.strong_induction_on with
  | _ n ih =>
    refine ⟨?_, ?_, ?_⟩
    · intro st v hv h
      cases v with
      | obj fields =>
        have hlt : sizeOf fields < n := by
          have := hv; simp only [J.obj.sizeOf_spec] at this; omega
        simp only [trItemJ]
        exact (ih (sizeOf fields) hlt).2.1 st fields le_rfl h
      | str s => exact h
      | num k => exact h
      | bool b => exact h
      | null => exact h
      | arr xs => exact h
    · intro st fl hfl h
      cases fl with
      | nil => exact h
      | cons kv rest =>
        obtain ⟨k, v⟩ := kv
        have hsz : sizeOf v < n ∧ sizeOf rest < n := by
          have := hfl
          simp only [List.cons.sizeOf_spec, Prod.mk.sizeOf_spec] at this
          omega
        rw [trItemFields.eq_def]
        dsimp only
        refine (ih (sizeOf rest) hsz.2).2.1 _ rest le_rfl ?_
        split
        · split
          · rename_i xs
            exact cov_convPathsL fs base xs st h
          · exact h
        · split
          · split
            · rename_i xs
              have hxs : sizeOf xs < n := by
                have h5 := hsz.1
                simp only [J.arr.sizeOf_spec] at h5
                omega
              exact (ih (sizeOf xs) hxs).2.2 st xs le_rfl h
            · exact h
          · exact h
    · intro st xs hxs h
      cases xs with
      | nil => exact h
      | cons x rest =>
        have hsz : sizeOf x < n ∧ sizeOf rest < n := by
          have := hxs; simp only [List.cons.sizeOf_spec] at this; omega
        simp only [trItemList]
        exact (ih (sizeOf rest) hsz.2).2.2 _ rest le_rfl
          ((ih (sizeOf x) hsz.1).1 st x le_rfl h)

/-- Joint size-bounded statement: the `_transform_strings` walk keeps cached
reads covered. -/
theorem cov_trStr_all (fs : FS) (base : LC) : ∀ n : Nat,
    (∀ (st : MSt) (v : J), sizeOf v ≤ n → Cov st → Cov (trStrJ fs base st v).2) ∧
    (∀ (st : MSt) (fl : List (LC × J)), sizeOf fl ≤ n → Cov st →
      Cov (trStrFields fs base st fl).2) ∧
    (∀ (st : MSt) (xs : List J), sizeOf xs ≤ n → Cov st →
      Cov (trStrList fs base st xs).2) := by
  intro n
  induction n using Nat.strong_induction_on with
  | _ n ih =>
    refine ⟨?_, ?_, ?_⟩
    · intro st v hv h
      cases v with
      | obj fields =>
        have hlt : sizeOf fields < n := by
          have := hv; simp only [J.obj.sizeOf_spec] at this; omega
        simp only [trStrJ]
        exact (ih (sizeOf fields) hlt).2.1 st fields le_rfl h
      | arr xs =>
        have hlt : sizeOf xs < n := by
          have := hv; simp only [J.arr.sizeOf_spec] at this; omega
        simp only [trStrJ]
        exact (ih (sizeOf xs) hlt).2.2 st xs le_rfl h
      | str s =>
        simp only [trStrJ]
        exact cov_inlineTextFull fs base st s h
      | num k => exact h
      | bool b => exact h
      | null => exact h
    · intro st fl hfl h
      cases fl with
      | nil => exact h
      | cons kv rest =>
        obtain ⟨k, v⟩ := kv
        have hsz : sizeOf v < n ∧ sizeOf rest < n := by
          have := hfl
          simp only [List.cons.sizeOf_spec, Prod.mk.sizeOf_spec] at this
          omega
        simp only [trStrFields]
        exact (ih (sizeOf rest) hsz.2).2.1 _ rest le_rfl
          ((ih (sizeOf v) hsz.1).1 st v le_rfl h)
    · intro st xs hxs h
      cases xs with
      | nil => exact h
      | cons x rest =>
        have hsz : sizeOf x < n ∧ sizeOf rest < n := by
          have := hxs; simp only [List.cons.sizeOf_spec] at this; omega
        simp only [trStrList]
        exact (ih (sizeOf rest) hsz.2).2.2 _ rest le_rfl
          ((ih (sizeOf x) hsz.1).1 st x le_rfl h)

/-- The fresh structured-pass state has its (empty) reads covered. -/
theorem Cov_initial : Cov initialCachedSt :=
  ⟨[], rfl, by intro p hp; simp [initialCachedSt] at hp⟩

/-- The two tree walks keep cached reads covered, from the fresh state. -/
theorem cov_convertStructuredBody (fs : FS) (base : LC) (v : J) :
    Cov (convertStructuredBody fs base v).2 := by
  unfold convertStructuredBody
  cases v with
  | arr xs =>
    exact (cov_trStr_all fs base (sizeOf (trItemList fs base initialCachedSt xs).1)).2.2 _ _
      le_rfl ((cov_trItem_all fs base (sizeOf xs)).2.2 initialCachedSt xs le_rfl Cov_initial)
  | obj fields =>
    exact (cov_trStr_all fs base (sizeOf (trItemJ fs base initialCachedSt (J.obj fields)).1)).1
      _ _ le_rfl
      ((cov_trItem_all fs base (sizeOf (J.obj fields))).1 initialCachedSt _ le_rfl Cov_initial)
  | str s => exact Cov_initial
  | num k => exact Cov_initial
  | bool b => exact Cov_initial
  | null => exact Cov_initial

/-- The post-serialization passes keep cached reads covered. -/
theorem cov_convertPostPasses (fs : FS) (base : LC) (r1 : J × MSt) (h : Cov r1.2) :
    Cov (convertPostPasses fs base r1).2 := by
  unfold convertPostPasses
  dsimp only
  refine cov_inlineTextFull fs base _ _ ?_
  split
  · exact cov_subQI fs base _ _ h
  · exact h

/-- The final state of a structured pass has all cached reads covered by the
pending-deletion set. -/
theorem convertParsedCore_Cov (fs : FS) (base : LC) (v : J) :
    Cov (convertParsedCore fs base v).2 :=
  cov_convertPostPasses fs base _ (cov_convertStructuredBody fs base v)

/-- claim C1 (amended): on the structured path of `convert_images_in_json`,
the pending-deletion set and the cached-read log coincide in coverage: every
file read through the pass's cache is in the pending-deletion set, every path
in the set was read through the cache, and the cleanup loop removes the whole
set from disk before the call returns; the reads of the bare-quoted fallback
and the whole unstructured path are untracked and nothing is deleted there
(see the counterexample). -/
theorem claim1_amended_cleanup (fs : FS) (base : LC) (v : J) (p q : LC)
    (hp : p ∈ (convertImagesInJson fs base (Candidate.parsed v)).delSet)
    (hq : q ∈ (convertImagesInJson fs base (Candidate.parsed v)).readsC) :
    (alookup (convertImagesInJson fs base (Candidate.parsed v)).fsAfter p = none ∧
     p ∈ (convertImagesInJson fs base (Candidate.parsed v)).readsC) ∧
    q ∈ (convertImagesInJson fs base (Candidate.parsed v)).delSet := by
  obtain ⟨m, l, h1, h2, h3, h4, h5, h6⟩ := convertParsedCore_InvS fs base v
  obtain ⟨lc, hlc, hcov⟩ := convertParsedCore_Cov fs base v
  have hll : lc = l := by
    rw [h2] at hlc
    injection hlc with hlc
    exact hlc.symm
  have hds : (convertImagesInJson fs base (Candidate.parsed v)).delSet =
      delListOf (convertParsedCore fs base v).2 := rfl
  have hl2 : delListOf (convertParsedCore fs base v).2 = l := by
    simp [delListOf, h2]
  refine ⟨⟨?_, ?_⟩, ?_⟩
  · exact alookup_fsEraseAll fs _ p (by rw [hds] at hp; exact hp)
  · have hpl : p ∈ l := by rw [hds, hl2] at hp; exact hp
    exact h5 p hpl
  · rw [hds, hl2]
    rw [← hll]
    exact hcov q hq

/-- Concrete inputs for the C1 witness. -/
def fsW1 : FS := [(cs "out/imgs/a.png", cs "ABC")]

/-- The JSON value of the C1 witness: an object whose `question_images` list
references the local file. -/
def vW1 : J := .obj [(qiK, .arr [.str (cs "imgs/a.png")])]

/-- Witness: a structured pass that inlines one file reads it through the
cache, puts it in the deletion set, and the amended C1 theorem applies to it. -/
theorem claim1_amended_cleanup_witness :
    (cs "out/imgs/a.png" ∈ (convertImagesInJson fsW1 (cs "out") (Candidate.parsed vW1)).delSet ∧
     cs "out/imgs/a.png" ∈ (convertImagesInJson fsW1 (cs "out") (Candidate.parsed vW1)).readsC) ∧
    ((alookup (convertImagesInJson fsW1 (cs "out") (Candidate.parsed vW1)).fsAfter
        (cs "out/imgs/a.png") = none ∧
      cs "out/imgs/a.png" ∈ (convertImagesInJson fsW1 (cs "out") (Candidate.parsed vW1)).readsC) ∧
     cs "out/imgs/a.png" ∈ (convertImagesInJson fsW1 (cs "out") (Candidate.parsed vW1)).delSet) :=
  ⟨⟨by decide, by decide⟩,
   claim1_amended_cleanup fsW1 (cs "out") vW1 (cs "out/imgs/a.png") (cs "out/imgs/a.png")
     (by decide) (by decide)⟩

/-- claim C2 (amended): within one structured pass of `convert_images_in_json`,
the reads that go through the pass's shared cache (the `question_images` /
`analysis_images` conversions and the tag-based textual passes) hit each
distinct file at most once; only the cache-bypassing bare-quoted fallback can
re-read a file (see the counterexample). -/
theorem claim2_amended_dedup (fs : FS) (base : LC) (v : J) :
    (convertImagesInJson fs base (Candidate.parsed v)).readsC.Nodup := by
  obtain ⟨m, l, h1, h2, h3, h4, h5, h6⟩ := convertParsedCore_InvS fs base v
  exact h3

/-- claim C6: characterization of the shared path resolver.  Scheme-prefixed
references pass through both call sites unchanged; a missing file leaves the
original reference and raises nothing; an existing file is returned as the bare
base64 payload by the structural call site and as a `data:<mime>;base64,`
URI by the textual call site, both serving the same cached encoding on a hit
and storing the freshly encoded payload on a miss; the mime type is determined
by the lowercased extension exactly as the claim's table states. -/
theorem claim6_path_resolver (fs : FS) (base : LC) (st : MSt) (p : LC) :
    (isScheme p = true →
      convertPathBare fs base p st = (p, st) ∧ convertPathInline fs base p st = (p, st)) ∧
    (isScheme p = false → alookup fs (resolvePath base p) = none →
      convertPathBare fs base p st = (p, st) ∧ convertPathInline fs base p st = (p, st)) ∧
    (∀ ct m b, isScheme p = false → alookup fs (resolvePath base p) = some ct →
      st.cache = some m → alookup m (resolvePath base p) = some b →
      convertPathBare fs base p st = (b, st) ∧
      (convertPathInline fs base p st).1 =
        cs "data:" ++ mimeFromExt (resolvePath base p) ++ cs ";base64," ++ b ∧
      (convertPathInline fs base p st).2.readsC = st.readsC ∧
      (convertPathInline fs base p st).2.readsU = st.readsU) ∧
    (∀ ct m, isScheme p = false → alookup fs (resolvePath base p) = some ct →
      st.cache = some m → alookup m (resolvePath base p) = none →
      (convertPathBare fs base p st).1 = toBase64 ct ∧
      (convertPathInline fs base p st).1 =
        cs "data:" ++ mimeFromExt (resolvePath base p) ++ cs ";base64," ++ toBase64 ct ∧
      (convertPathBare fs base p st).2.cache =
        some ((resolvePath base p, toBase64 ct) :: m) ∧
      (convertPathBare fs base p st).2.readsC = st.readsC ++ [resolvePath base p]) ∧
    (extOf p = cs ".jpg" ∨ extOf p = cs ".jpeg" → mimeFromExt p = cs "image/jpeg") ∧
    (extOf p = cs ".png" → mimeFromExt p = cs "image/png") ∧
    (extOf p = cs ".webp" → mimeFromExt p = cs "image/webp") ∧
    (extOf p = cs ".bmp" → mimeFromExt p = cs "image/bmp") ∧
    (extOf p = cs ".gif" → mimeFromExt p = cs "image/gif") ∧
    (extOf p = cs ".tif" ∨ extOf p = cs ".tiff" → mimeFromExt p = cs "image/tiff") ∧
    (extOf p ∉ [cs ".jpg", cs ".jpeg", cs ".png", cs ".webp", cs ".bmp", cs ".gif",
        cs ".tif", cs ".tiff"] →
      mimeFromExt p = cs "application/octet-stream") := by
  obtain ⟨cOpt, tOpt, rC, rU⟩ := st
  refine ⟨?_, ?_, ?_, ?_, ?_, ?_, ?_, ?_, ?_, ?_, ?_⟩
  · intro hs
    constructor <;> simp [convertPathBare, convertPathInline, hs]
  · intro hs hn
    constructor <;> simp [convertPathBare, convertPathInline, hs, hn]
  · intro ct m b hs hf hc hm
    simp only [MSt.cache] at hc
    subst hc
    refine ⟨?_, ?_, ?_, ?_⟩ <;>
      cases tOpt <;>
        simp [convertPathBare, convertPathInline, obtainB64, addDel, hs, hf, hm]
  · intro ct m hs hf hc hm
    simp only [MSt.cache] at hc
    subst hc
    refine ⟨?_, ?_, ?_, ?_⟩ <;>
      cases tOpt <;>
        simp [convertPathBare, convertPathInline, obtainB64, addDel, hs, hf, hm]
  · intro h
    rcases h with h | h <;> simp [mimeFromExt, h]
  · intro h; simp [mimeFromExt, h]; decide
  · intro h; simp [mimeFromExt, h]; decide
  · intro h; simp [mimeFromExt, h]; decide
  · intro h; simp [mimeFromExt, h]; decide
  · intro h
    rcases h with h | h <;> (simp [mimeFromExt, h]; decide)
  · intro h
    simp only [List.mem_cons, List.mem_singleton, not_or] at h
    obtain ⟨h1, h2, h3, h4, h5, h6, h7, h8⟩ := h
    simp [mimeFromExt, h1, h2, h3, h4, h5, h6, h7, h8]

/-- Concrete filesystem for the C6 witness. -/
def fsW6 : FS := [(cs "out/imgs/a.png", cs "ABC")]

/-- Witness: the cache-miss case of the resolver at a concrete png file. -/
theorem claim6_path_resolver_witness :
    (convertPathBare fsW6 (cs "out") (cs "imgs/a.png") initialCachedSt).1 =
      toBase64 (cs "ABC") ∧
    (convertPathInline fsW6 (cs "out") (cs "imgs/a.png") initialCachedSt).1 =
      cs "data:" ++ mimeFromExt (resolvePath (cs "out") (cs "imgs/a.png")) ++ cs ";base64," ++
        toBase64 (cs "ABC") ∧
    (convertPathBare fsW6 (cs "out") (cs "imgs/a.png") initialCachedSt).2.cache =
      some ((resolvePath (cs "out") (cs "imgs/a.png"), toBase64 (cs "ABC")) :: []) ∧
    (convertPathBare fsW6 (cs "out") (cs "imgs/a.png") initialCachedSt).2.readsC =
      initialCachedSt.readsC ++ [resolvePath (cs "out") (cs "imgs/a.png")] :=
  (claim6_path_resolver fsW6 (cs "out") initialCachedSt (cs "imgs/a.png")).2.2.2.1
    (cs "ABC") [] (by decide) (by decide) rfl (by decide)

/-- A prefix occurrence is an occurrence. -/
theorem containsSeg_of_prefix {pat y : LC} (h : pat <+: y) : containsSeg pat y = true := by
  cases y with
  | nil =>
    simp only [containsSeg, List.isPrefixOf_iff_prefix]
    exact h
  | cons c rest =>
    simp only [containsSeg, List.isPrefixOf_iff_prefix, Bool.or_eq_true, decide_eq_true_eq]
    exact Or.inl h

/-- Without an occurrence, the leftmost-split search fails. -/
theorem findSeg_none_of_not_contains (pat : LC) :
    ∀ s, containsSeg pat s = false → findSeg pat s = none := by
  intro s
  induction s with
  | nil =>
    intro h
    simp only [containsSeg] at h
    simp [findSeg, h]
  | cons c rest ih =>
    intro h
    simp only [containsSeg, Bool.or_eq_false_iff] at h
    simp [findSeg, h.1, ih h.2]

/-- The leftmost-split search finds the marked occurrence when no occurrence
starts earlier (no occurrence fits inside `pre ++ pat.dropLast`). -/
theorem findSeg_at (pat : LC) (hne : pat ≠ []) :
    ∀ pre rest : LC, containsSeg pat (pre ++ pat.dropLast) = false →
      findSeg pat (pre ++ (pat ++ rest)) = some (pre, rest) := by
  intro pre
  induction pre with
  | nil =>
    intro rest _
    obtain ⟨a, as, hp⟩ : ∃ a as, pat = a :: as := by
      cases pat with
      | nil => exact absurd rfl hne
      | cons a as => exact ⟨a, as, rfl⟩
    subst hp
    simp only [List.nil_append, List.cons_append, findSeg]
    rw [if_pos]
    · show some ([], List.drop (a :: as).length ((a :: as) ++ rest)) = some ([], rest)
      rw [List.drop_left]
    · show (a :: as).isPrefixOf ((a :: as) ++ rest) = true
      simp only [List.isPrefixOf_iff_prefix]
      exact List.prefix_append _ _
  | cons c pre' ih =>
    intro rest hpre
    have hpre' : containsSeg pat (pre' ++ pat.dropLast) = false := by
      have h0 := hpre
      simp only [List.cons_append, containsSeg, Bool.or_eq_false_iff] at h0
      exact h0.2
    have hnotpre : pat.isPrefixOf (c :: (pre' ++ (pat ++ rest))) = false := by
      by_contra hb
      rw [Bool.not_eq_false] at hb
      have hpfx : pat <+: c :: (pre' ++ (pat ++ rest)) := List.isPrefixOf_iff_prefix.mp hb
      have hdecomp : c :: (pre' ++ (pat ++ rest)) =
          ((c :: pre') ++ pat.dropLast) ++ ([pat.getLast hne] ++ rest) := by
        conv_lhs => rw [← List.dropLast_concat_getLast hne]
        simp [List.append_assoc]
      have hpfx2 : ((c :: pre') ++ pat.dropLast) <+: c :: (pre' ++ (pat ++ rest)) := by
        rw [hdecomp]
        exact List.prefix_append _ _
      have hlen : pat.length ≤ ((c :: pre') ++ pat.dropLast).length := by
        have h1 : 1 ≤ pat.length := List.length_pos.mpr hne
        simp only [List.length_append, List.length_cons, List.length_dropLast]
        omega
      have hsmall := List.prefix_of_prefix_length_le hpfx hpfx2 hlen
      have hcontra := containsSeg_of_prefix hsmall
      rw [hcontra] at hpre
      cases hpre
    have hx : (c :: pre') ++ (pat ++ rest) = c :: (pre' ++ (pat ++ rest)) := rfl
    rw [hx]
    simp only [findSeg, hnotpre]
    rw [ih rest hpre']
    simp

/-- claim C9: the post-processing of `extract_content` returns the content of
the first complete code-fenced block, with an optional `json` info tag
dropped and surrounding whitespace stripped; with no complete fenced block
(no fence at all, or a single unclosed fence) it returns the whole text
trimmed.  The hypotheses pin the marked fences as the leftmost ones. -/
theorem claim9_fence_stripping (pre mid post s pre2 rest2 : LC)
    (h1 : containsSeg fenceT (pre ++ fenceT.dropLast) = false)
    (h2 : containsSeg fenceT (mid ++ fenceT.dropLast) = false)
    (h3 : containsSeg fenceT s = false)
    (h4 : containsSeg fenceT (pre2 ++ fenceT.dropLast) = false)
    (h5 : containsSeg fenceT rest2 = false) :
    extractFencedContent (pre ++ (fenceT ++ (mid ++ (fenceT ++ post)))) =
      trimL (dropJsonTag mid) ∧
    extractFencedContent s = trimL s ∧
    extractFencedContent (pre2 ++ (fenceT ++ rest2)) =
      trimL (pre2 ++ (fenceT ++ rest2)) := by
  have hne : fenceT ≠ [] := by decide
  refine ⟨?_, ?_, ?_⟩
  · unfold extractFencedContent
    rw [findSeg_at fenceT hne pre (mid ++ (fenceT ++ post)) h1]
    dsimp only
    rw [findSeg_at fenceT hne mid post h2]
  · unfold extractFencedContent
    rw [findSeg_none_of_not_contains fenceT s h3]
  · unfold extractFencedContent
    rw [findSeg_at fenceT hne pre2 rest2 h4]
    dsimp only
    rw [findSeg_none_of_not_contains fenceT rest2 h5]

/-- Witness for C9 at concrete strings: a fenced `json` block is extracted,
plain text is trimmed, an unclosed fence falls back to the whole text. -/
theorem claim9_fence_stripping_witness :
    extractFencedContent (cs "a " ++ (fenceT ++ (cs "json [1, 2] " ++ (fenceT ++ cs " b")))) =
      trimL (dropJsonTag (cs "json [1, 2] ")) ∧
    extractFencedContent (cs " plain ") = trimL (cs " plain ") ∧
    extractFencedContent (cs "x" ++ (fenceT ++ cs "y")) =
      trimL (cs "x" ++ (fenceT ++ cs "y")) :=
  claim9_fence_stripping (cs "a ") (cs "json [1, 2] ") (cs " b") (cs " plain ") (cs "x") (cs "y")
    (by decide) (by decide) (by decide) (by decide) (by decide)

/-- Soundness notion for a matcher: a match decomposes its input into the
three groups followed by the rest, and consumes at least one character. -/
def TmSound (tm : LC → Option MatchRes) : Prop :=
  ∀ s m, tm s = some m →
    (∃ tail, s = m.g1 ++ (m.g2 ++ (m.g3 ++ tail)) ∧ s.drop m.len = tail) ∧ 1 ≤ m.len

/-- Dropping the three leading groups of a decomposition leaves the tail. -/
theorem drop_decomp (g1 g2 g3 tail : LC) :
    (g1 ++ (g2 ++ (g3 ++ tail))).drop (g1.length + g2.length + g3.length) = tail := by
  rw [show g1 ++ (g2 ++ (g3 ++ tail)) = ((g1 ++ g2) ++ g3) ++ tail by simp [List.append_assoc]]
  rw [show g1.length + g2.length + g3.length = ((g1 ++ g2) ++ g3).length by
    simp only [List.length_append]]
  exact List.drop_left _ _

/-- A case-insensitive prefix is no longer than the string. -/
theorem ciIsPre_length : ∀ pat s : LC, ciIsPre pat s = true → pat.length ≤ s.length := by
  intro pat
  induction pat with
  | nil => intro s _; simp
  | cons p ps ih =>
    intro s h
    cases s with
    | nil => simp [ciIsPre] at h
    | cons c rest =>
      simp only [ciIsPre, Bool.and_eq_true] at h
      have := ih rest h.2
      simp only [List.length_cons]
      omega

/-- The quoted-`imgs/` matcher is sound. -/
theorem tryMatchQ_sound : TmSound tryMatchQ := by
  intro s m h
  cases s with
  | nil => simp [tryMatchQ] at h
  | cons c rest =>
    simp only [tryMatchQ] at h
    by_cases hc : c = dqC
    · rw [if_pos hc] at h
      by_cases hp : imgsT.isPrefixOf (rest.takeWhile (notCh dqC)) = true ∧
          imgsT.length < (rest.takeWhile (notCh dqC)).length
      · rw [if_pos hp] at h
        cases hd : rest.dropWhile (notCh dqC) with
        | nil => rw [hd] at h; cases h
        | cons d tail =>
          rw [hd] at h
          dsimp only at h
          by_cases hdq : d = dqC
          · rw [if_pos hdq] at h
            injection h with h
            subst h
            subst hc
            subst hdq
            have hsplit : rest = rest.takeWhile (notCh dqC) ++ (dqC :: tail) := by
              conv_lhs => rw [← List.takeWhile_append_dropWhile (p := notCh dqC) (l := rest)]
              rw [hd]
            have hwhole : dqC :: rest =
                [dqC] ++ ((rest.takeWhile (notCh dqC)) ++ ([dqC] ++ tail)) := by
              show dqC :: rest = dqC :: ((rest.takeWhile (notCh dqC)) ++ (dqC :: tail))
              rw [← hsplit]
            refine ⟨⟨tail, ?_, ?_⟩, ?_⟩
            · exact hwhole
            · show (dqC :: rest).drop
                ([dqC].length + (rest.takeWhile (notCh dqC)).length + [dqC].length) = tail
              rw [hwhole]
              exact drop_decomp [dqC] _ [dqC] tail
            · simp [MatchRes.len]
          · rw [if_neg hdq] at h; cases h
      · rw [if_neg hp] at h; cases h
    · rw [if_neg hc] at h; cases h

/-- The Markdown-image matcher is sound. -/
theorem tryMatchC_sound : TmSound tryMatchC := by
  intro s m h
  match s, h with
  | c1 :: c2 :: rest, h =>
    simp only [tryMatchC] at h
    by_cases hc : c1 = '!' ∧ c2 = '['
    · rw [if_pos hc] at h
      cases hd : rest.dropWhile (notCh ']') with
      | nil => rw [hd] at h; cases h
      | cons d1 tail1 =>
        cases tail1 with
        | nil => rw [hd] at h; dsimp only at h; cases h
        | cons d2 r2 =>
          rw [hd] at h
          dsimp only at h
          by_cases hd12 : d1 = ']' ∧ d2 = '('
          · rw [if_pos hd12] at h
            by_cases hp : 1 ≤ (r2.takeWhile (notCh ')')).length
            · rw [if_pos hp] at h
              cases hd2 : r2.dropWhile (notCh ')') with
              | nil => rw [hd2] at h; cases h
              | cons e tail2 =>
                rw [hd2] at h
                dsimp only at h
                by_cases he : e = ')'
                · rw [if_pos he] at h
                  injection h with h
                  subst h
                  obtain ⟨hc1, hc2⟩ := hc
                  obtain ⟨hd1e, hd2e⟩ := hd12
                  subst hc1; subst hc2; subst hd1e; subst hd2e; subst he
                  have hsplit1 : rest = rest.takeWhile (notCh ']') ++ (']' :: '(' :: r2) := by
                    conv_lhs =>
                      rw [← List.takeWhile_append_dropWhile (p := notCh ']') (l := rest)]
                    rw [hd]
                  have hsplit2 : r2 = r2.takeWhile (notCh ')') ++ (')' :: tail2) := by
                    conv_lhs =>
                      rw [← List.takeWhile_append_dropWhile (p := notCh ')') (l := r2)]
                    rw [hd2]
                  have hwhole : '!' :: '[' :: rest =
                      ('!' :: '[' :: (rest.takeWhile (notCh ']') ++ [']', '('])) ++
                        ((r2.takeWhile (notCh ')')) ++ ([')'] ++ tail2)) := by
                    conv_lhs => rw [hsplit1]
                    conv_lhs => rw [hsplit2]
                    simp
                  refine ⟨⟨tail2, ?_, ?_⟩, ?_⟩
                  · exact hwhole
                  · show ('!' :: '[' :: rest).drop
                      (('!' :: '[' :: (rest.takeWhile (notCh ']') ++ [']', '('])).length +
                        (r2.takeWhile (notCh ')')).length + [')'].length) = tail2
                    rw [hwhole]
                    exact drop_decomp _ _ _ tail2
                  · simp [MatchRes.len]
                · rw [if_neg he] at h; cases h
            · rw [if_neg hp] at h; cases h
          · rw [if_neg hd12] at h; cases h
    · rw [if_neg hc] at h; cases h

/-- A successful `src...=...<q>path<q>` completion decomposes its input. -/
theorem completeSrc_sound (q : Char) (t mid path after : LC)
    (h : completeSrc q t = some (mid, path, after)) :
    t = mid ++ (path ++ (q :: after)) := by
  unfold completeSrc at h
  by_cases hci : ciIsPre srcT t = true
  · rw [if_pos hci] at h
    dsimp only at h
    cases hd1 : (t.drop 3).dropWhile isSpaceC with
    | nil => rw [hd1] at h; cases h
    | cons e t3 =>
      rw [hd1] at h
      dsimp only at h
      by_cases he : e = '='
      · rw [if_pos he] at h
        cases hd2 : t3.dropWhile isSpaceC with
        | nil => rw [hd2] at h; cases h
        | cons qc t5 =>
          rw [hd2] at h
          dsimp only at h
          by_cases hqc : qc = q
          · rw [if_pos hqc] at h
            by_cases hp : 1 ≤ (t5.takeWhile (notCh q)).length
            · rw [if_pos hp] at h
              cases hd3 : t5.dropWhile (notCh q) with
              | nil => rw [hd3] at h; cases h
              | cons q2 after2 =>
                rw [hd3] at h
                dsimp only at h
                by_cases hq2 : q2 = q
                · rw [if_pos hq2] at h
                  injection h with h
                  rw [Prod.mk.injEq, Prod.mk.injEq] at h
                  obtain ⟨h1, h2, h3⟩ := h
                  rw [← h1, ← h2, ← h3]
                  have e1 : t = t.take 3 ++ t.drop 3 := (List.take_append_drop 3 t).symm
                  have e2 : t.drop 3 = (t.drop 3).takeWhile isSpaceC ++ ('=' :: t3) := by
                    conv_lhs =>
                      rw [← List.takeWhile_append_dropWhile (p := isSpaceC) (l := t.drop 3)]
                    rw [hd1, he]
                  have e3 : t3 = t3.takeWhile isSpaceC ++ (q :: t5) := by
                    conv_lhs =>
                      rw [← List.takeWhile_append_dropWhile (p := isSpaceC) (l := t3)]
                    rw [hd2, hqc]
                  have e4 : t5 = t5.takeWhile (notCh q) ++ (q :: after2) := by
                    conv_lhs =>
                      rw [← List.takeWhile_append_dropWhile (p := notCh q) (l := t5)]
                    rw [hd3, hq2]
                  conv_lhs => rw [e1, e2, e3, e4]
                  simp [List.append_assoc]
                · rw [if_neg hq2] at h; cases h
            · rw [if_neg hp] at h; cases h
          · rw [if_neg hqc] at h; cases h
      · rw [if_neg he] at h; cases h
  · rw [if_neg hci] at h; cases h

/-- A successful zone scan decomposes its input. -/
theorem srcZone_sound (q : Char) :
    ∀ (t : LC) (prev : Char) (z path after : LC),
      srcZone q prev t = some (z, path, after) → t = z ++ (path ++ (q :: after)) := by
  intro t
  induction t with
  | nil => intro prev z path after h; simp [srcZone] at h
  | cons c rest ih =>
    intro prev z path after h
    simp only [srcZone] at h
    by_cases hgt : c = '>'
    · rw [if_pos hgt] at h; cases h
    · rw [if_neg hgt] at h
      cases hz : srcZone q c rest with
      | some r =>
        obtain ⟨z', path', after'⟩ := r
        rw [hz] at h
        dsimp only at h
        injection h with h
        rw [Prod.mk.injEq, Prod.mk.injEq] at h
        obtain ⟨h1, h2, h3⟩ := h
        rw [← h1, ← h2, ← h3]
        have hrec := ih c z' path' after' hz
        rw [List.cons_append, ← hrec]
      | none =>
        rw [hz] at h
        dsimp only at h
        by_cases hw : isWordC prev = true
        · rw [if_pos hw] at h; cases h
        · rw [if_neg hw] at h
          cases hcs : completeSrc q (c :: rest) with
          | some r =>
            obtain ⟨mid, path', after'⟩ := r
            rw [hcs] at h
            dsimp only at h
            injection h with h
            rw [Prod.mk.injEq, Prod.mk.injEq] at h
            obtain ⟨h1, h2, h3⟩ := h
            rw [← h1, ← h2, ← h3]
            exact completeSrc_sound q _ mid path' after' hcs
          | none => rw [hcs] at h; cases h

/-- The HTML `<img ... src=...>` matcher is sound (for either quote). -/
theorem tryMatchHtml_sound (q : Char) : TmSound (tryMatchHtml q) := by
  intro s m h
  unfold tryMatchHtml at h
  by_cases hci : ciIsPre imgT s = true
  · rw [if_pos hci] at h
    cases hdrop : s.drop 4 with
    | nil => rw [hdrop] at h; cases h
    | cons c t' =>
      rw [hdrop] at h
      dsimp only at h
      by_cases hw : isWordC c = true
      · rw [if_pos hw] at h; cases h
      · rw [if_neg hw] at h
        cases hz : srcZone q 'g' (c :: t') with
        | some r =>
          obtain ⟨z, path, after⟩ := r
          rw [hz] at h
          dsimp only at h
          injection h with h
          subst h
          have hdec : c :: t' = z ++ (path ++ (q :: after)) :=
            srcZone_sound q (c :: t') 'g' z path after hz
          have hs : s = (s.take 4 ++ z) ++ (path ++ ([q] ++ after)) := by
            conv_lhs => rw [← List.take_append_drop 4 s, hdrop, hdec]
            simp [List.append_assoc]
          generalize hT : s.take 4 = T at hs ⊢
          refine ⟨⟨after, ?_, ?_⟩, ?_⟩
          · exact hs
          · show s.drop ((T ++ z).length + path.length + [q].length) = after
            conv_lhs => rw [hs]
            exact drop_decomp _ _ _ after
          · simp [MatchRes.len]
        | none => rw [hz] at h; cases h
  · rw [if_neg hci] at h; cases h

/-- A substitution pass whose callback reproduces every match verbatim (and
leaves the state alone) is the identity. -/
theorem scanSubF_id (tm : LC → Option MatchRes) (rep : MatchRes → MSt → LC × MSt)
    (hs : TmSound tm) (st : MSt) :
    ∀ (fuel : Nat) (l : LC),
      (∀ t, t <:+ l → ∀ m, tm t = some m → rep m st = (m.g1 ++ (m.g2 ++ m.g3), st)) →
      scanSubF tm rep fuel st l = (l, st) := by
  intro fuel
  induction fuel with
  | zero => intro l _; rfl
  | succ fuel ih =>
    intro l hrep
    cases l with
    | nil => rfl
    | cons c rest =>
      simp only [scanSubF]
      cases htm : tm (c :: rest) with
      | none =>
        rw [ih rest (fun t ht m hm => hrep t (ht.trans (List.suffix_cons c rest)) m hm)]
      | some m =>
        obtain ⟨⟨tail, hdec, hdrop⟩, hlen⟩ := hs (c :: rest) m htm
        dsimp only
        rw [if_pos hlen]
        rw [hrep (c :: rest) List.suffix_rfl m htm]
        dsimp only
        rw [hdrop]
        have hsuf : tail <:+ c :: rest := by
          refine ⟨(m.g1 ++ m.g2) ++ m.g3, ?_⟩
          rw [hdec]
          simp [List.append_assoc]
        rw [ih tail (fun t ht m' hm' => hrep t (ht.trans hsuf) m' hm')]
        rw [Prod.mk.injEq]
        refine ⟨?_, rfl⟩
        rw [hdec]
        simp [List.append_assoc]

/-- A path occurrence the textual pass leaves alone: not `imgs/`-or-absolute,
or scheme-prefixed, or not an existing file. -/
def pathBenignTag (fs : FS) (base : LC) (p : LC) : Bool :=
  !(imgsOrAbs p) || isScheme p || !(fsIsFile fs (resolvePath base p))

/-- Every match of `tm` anywhere in `s` has a path satisfying `f`. -/
def tmAllBenign (tm : LC → Option MatchRes) (f : LC → Bool) (s : LC) : Bool :=
  s.tails.all (fun t =>
    match tm t with
    | some m => f m.g2
    | none => true)

/-- Unfolding `tmAllBenign` at a suffix. -/
theorem tmAllBenign_spec {tm : LC → Option MatchRes} {f : LC → Bool} {s : LC}
    (h : tmAllBenign tm f s = true) :
    ∀ t, t <:+ s → ∀ m, tm t = some m → f m.g2 = true := by
  intro t ht m hm
  have h2 := List.all_eq_true.mp h t ((List.mem_tails t s).mpr ht)
  rw [hm] at h2
  exact h2

/-- With a benign path, the tag callback reproduces the match verbatim. -/
theorem repTag_id (fs : FS) (base : LC) (m : MatchRes) (st : MSt)
    (hb : pathBenignTag fs base m.g2 = true) :
    repTag fs base m st = (m.g1 ++ (m.g2 ++ m.g3), st) := by
  unfold repTag
  by_cases hio : imgsOrAbs m.g2 = true
  · rw [if_pos hio]
    have hconv : convertPathInline fs base m.g2 st = (m.g2, st) := by
      unfold pathBenignTag at hb
      rw [hio] at hb
      simp only [Bool.not_true, Bool.false_or, Bool.or_eq_true, Bool.not_eq_true'] at hb
      unfold convertPathInline
      by_cases hsc : isScheme m.g2 = true
      · rw [if_pos hsc]
      · rw [if_neg hsc]
        have hni : alookup fs (resolvePath base m.g2) = none := by
          rcases hb with hb | hb
          · exact absurd hb hsc
          · unfold fsIsFile at hb
            exact Option.not_isSome_iff_eq_none.mp (by rw [hb]; simp)
        dsimp only
        rw [hni]
    rw [hconv]
    rw [Prod.mk.injEq]
    refine ⟨?_, rfl⟩
    simp [List.append_assoc]
  · rw [if_neg hio]
    rw [Prod.mk.injEq]
    refine ⟨?_, rfl⟩
    simp [List.append_assoc]

/-- The quoted matcher always captures with quote groups. -/
theorem tryMatchQ_groups (s : LC) (m : MatchRes) (h : tryMatchQ s = some m) :
    m.g1 = [dqC] ∧ m.g3 = [dqC] := by
  cases s with
  | nil => simp [tryMatchQ] at h
  | cons c rest =>
    simp only [tryMatchQ] at h
    by_cases hc : c = dqC
    · rw [if_pos hc] at h
      by_cases hp : imgsT.isPrefixOf (rest.takeWhile (notCh dqC)) = true ∧
          imgsT.length < (rest.takeWhile (notCh dqC)).length
      · rw [if_pos hp] at h
        cases hd : rest.dropWhile (notCh dqC) with
        | nil => rw [hd] at h; cases h
        | cons d tail =>
          rw [hd] at h
          dsimp only at h
          by_cases hdq : d = dqC
          · rw [if_pos hdq] at h
            injection h with h
            subst h
            exact ⟨rfl, rfl⟩
          · rw [if_neg hdq] at h; cases h
      · rw [if_neg hp] at h; cases h
    · rw [if_neg hc] at h; cases h

/-- With the referenced file missing, the quoted callback reproduces the
match verbatim. -/
theorem repQuoted_id (fs : FS) (base : LC) (m : MatchRes) (st : MSt)
    (hb : fsIsFile fs (resolvePath base m.g2) = false)
    (hg1 : m.g1 = [dqC]) (hg3 : m.g3 = [dqC]) :
    repQuoted fs base m st = (m.g1 ++ (m.g2 ++ m.g3), st) := by
  unfold repQuoted
  have hni : alookup fs (resolvePath base m.g2) = none := by
    unfold fsIsFile at hb
    exact Option.not_isSome_iff_eq_none.mp (by rw [hb]; simp)
  dsimp only
  rw [hni]
  rw [hg1, hg3]
  rfl

/-- All textual-pass matches in `s` are benign. -/
def textBenign (fs : FS) (base : LC) (s : LC) : Bool :=
  tmAllBenign tryMatchA (pathBenignTag fs base) s &&
  tmAllBenign tryMatchB (pathBenignTag fs base) s &&
  tmAllBenign tryMatchC (pathBenignTag fs base) s

/-- All bare-quoted matches in `s` point at missing files. -/
def quotedBenign (fs : FS) (base : LC) (s : LC) : Bool :=
  tmAllBenign tryMatchQ (fun rel => !(fsIsFile fs (resolvePath base rel))) s

/-- One benign tag pass is the identity. -/
theorem scanSubTag_id (tm : LC → Option MatchRes) (hs : TmSound tm) (fs : FS) (base : LC)
    (st : MSt) (s : LC) (hb : tmAllBenign tm (pathBenignTag fs base) s = true) :
    scanSub tm (repTag fs base) st s = (s, st) :=
  scanSubF_id tm (repTag fs base) hs st s.length s
    (fun t ht m hm => repTag_id fs base m st (tmAllBenign_spec hb t ht m hm))

/-- A benign three-pass textual inlining is the identity. -/
theorem inlineTextFull_id (fs : FS) (base : LC) (st : MSt) (s : LC)
    (hb : textBenign fs base s = true) :
    inlineTextFull fs base st s = (s, st) := by
  unfold textBenign at hb
  simp only [Bool.and_eq_true] at hb
  obtain ⟨⟨hA, hB⟩, hC⟩ := hb
  unfold inlineTextFull
  rw [scanSubTag_id tryMatchA (tryMatchHtml_sound dqC) fs base st s hA]
  dsimp only
  rw [scanSubTag_id tryMatchB (tryMatchHtml_sound sqC) fs base st s hB]
  dsimp only
  rw [scanSubTag_id tryMatchC tryMatchC_sound fs base st s hC]

/-- A benign bare-quoted pass is the identity. -/
theorem subQI_id (fs : FS) (base : LC) (st : MSt) (s : LC)
    (hb : quotedBenign fs base s = true) :
    subQI fs base st s = (s, st) :=
  scanSubF_id tryMatchQ (repQuoted fs base) tryMatchQ_sound st s.length s
    (fun t ht m hm => by
      obtain ⟨hg1, hg3⟩ := tryMatchQ_groups t m hm
      have hf := tmAllBenign_spec hb t ht m hm
      simp only [Bool.not_eq_true'] at hf
      exact repQuoted_id fs base m st hf hg1 hg3)

/-- An element of a `question_images` / `analysis_images` list the bare
converter leaves alone: a non-string, a scheme-prefixed path, or a path whose
resolved file does not exist. -/
def elemBenign (fs : FS) (base : LC) : J → Bool
  | .str p => isScheme p || !(fsIsFile fs (resolvePath base p))
  | _ => true

mutual
/-- All image lists reachable by the `_transform_item` walk are benign. -/
def itemBenignJ (fs : FS) (base : LC) : J → Bool
  | .obj fields => itemBenignFields fs base fields
  | _ => true

/-- Field-wise benignity for `_transform_item`. -/
def itemBenignFields (fs : FS) (base : LC) : List (LC × J) → Bool
  | [] => true
  | (k, v) :: rest =>
    (if k = qiK ∨ k = aiK then
       match v with
       | .arr xs => xs.all (elemBenign fs base)
       | _ => true
     else if k = sqK then
       match v with
       | .arr xs => itemBenignList fs base xs
       | _ => true
     else true) && itemBenignFields fs base rest

/-- Benignity of a `sub_questions` list. -/
def itemBenignList (fs : FS) (base : LC) : List J → Bool
  | [] => true
  | x :: xs => itemBenignJ fs base x && itemBenignList fs base xs
end

mutual
/-- Every string leaf reachable by the `_transform_strings` walk is benign for
the three-pass textual inliner. -/
def strBenignJ (fs : FS) (base : LC) : J → Bool
  | .str s => textBenign fs base s
  | .arr xs => strBenignList fs base xs
  | .obj fields => strBenignFields fs base fields
  | _ => true

/-- String-leaf benignity over list elements. -/
def strBenignList (fs : FS) (base : LC) : List J → Bool
  | [] => true
  | x :: xs => strBenignJ fs base x && strBenignList fs base xs

/-- String-leaf benignity over dict entries. -/
def strBenignFields (fs : FS) (base : LC) : List (LC × J) → Bool
  | [] => true
  | (_, v) :: rest => strBenignJ fs base v && strBenignFields fs base rest
end

/-- The bare converter leaves a benign path alone. -/
theorem convertPathBare_id (fs : FS) (base p : LC) (st : MSt)
    (hb : (isScheme p || !(fsIsFile fs (resolvePath base p))) = true) :
    convertPathBare fs base p st = (p, st) := by
  unfold convertPathBare
  by_cases hsc : isScheme p = true
  · rw [if_pos hsc]
  · rw [if_neg hsc]
    simp only [hsc, Bool.false_or, Bool.not_eq_true'] at hb
    have hni : alookup fs (resolvePath base p) = none := by
      unfold fsIsFile at hb
      exact Option.not_isSome_iff_eq_none.mp (by rw [hb]; simp)
    dsimp only
    rw [hni]

/-- `_convert_paths` leaves a benign list element alone. -/
theorem convPathsElem_id (fs : FS) (base : LC) (st : MSt) (x : J)
    (hb : elemBenign fs base x = true) :
    convPathsElem fs base st x = (x, st) := by
  cases x with
  | str p =>
    simp only [convPathsElem]
    rw [convertPathBare_id fs base p st (by simpa [elemBenign] using hb)]
  | num n => rfl
  | bool b => rfl
  | null => rfl
  | arr xs => rfl
  | obj fields => rfl

/-- `_convert_paths` leaves a list of benign elements alone. -/
theorem convPathsL_id (fs : FS) (base : LC) :
    ∀ (xs : List J) (st : MSt), xs.all (elemBenign fs base) = true →
      convPathsL fs base st xs = (xs, st) := by
  intro xs
  induction xs with
  | nil => intro st _; rfl
  | cons x rest ih =>
    intro st hb
    simp only [List.all_cons, Bool.and_eq_true] at hb
    simp only [convPathsL]
    rw [convPathsElem_id fs base st x hb.1]
    dsimp only
    rw [ih st hb.2]

/-- Joint size-bounded statement: the `_transform_item` walk leaves a benign
tree (and the state) alone. -/
theorem trItem_id_all (fs : FS) (base : LC) : ∀ n : Nat,
    (∀ (st : MSt) (v : J), sizeOf v ≤ n → itemBenignJ fs base v = true →
      trItemJ fs base st v = (v, st)) ∧
    (∀ (st : MSt) (fl : List (LC × J)), sizeOf fl ≤ n →
      itemBenignFields fs base fl = true → trItemFields fs base st fl = (fl, st)) ∧
    (∀ (st : MSt) (xs : List J), sizeOf xs ≤ n → itemBenignList fs base xs = true →
      trItemList fs base st xs = (xs, st)) := by
  intro n
  induction n using Nat.strong_induction_on with
  | _ n ih =>
    refine ⟨?_, ?_, ?_⟩
    · intro st v hv hb
      cases v with
      | obj fields =>
        have hlt : sizeOf fields < n := by
          have := hv; simp only [J.obj.sizeOf_spec] at this; omega
        simp only [itemBenignJ] at hb
        simp only [trItemJ]
        rw [(ih (sizeOf fields) hlt).2.1 st fields le_rfl hb]
      | str s => rfl
      | num k => rfl
      | bool b => rfl
      | null => rfl
      | arr xs => rfl
    · intro st fl hfl hb
      cases fl with
      | nil => rfl
      | cons kv rest =>
        obtain ⟨k, v⟩ := kv
        have hsz : sizeOf v < n ∧ sizeOf rest < n := by
          have := hfl
          simp only [List.cons.sizeOf_spec, Prod.mk.sizeOf_spec] at this
          omega
        rw [itemBenignFields.eq_def] at hb
        dsimp only at hb
        rw [Bool.and_eq_true] at hb
        obtain ⟨hb1, hb2⟩ := hb
        have ihrest : trItemFields fs base st rest = (rest, st) :=
          (ih (sizeOf rest) hsz.2).2.1 st rest le_rfl hb2
        rw [trItemFields.eq_def]
        dsimp only
        by_cases hqa : k = qiK ∨ k = aiK
        · rw [if_pos hqa] at hb1 ⊢
          cases v with
          | arr xs =>
            dsimp only at hb1 ⊢
            rw [convPathsL_id fs base xs st hb1]
            dsimp only
            rw [ihrest]
          | str s => dsimp only; rw [ihrest]
          | num k2 => dsimp only; rw [ihrest]
          | bool b2 => dsimp only; rw [ihrest]
          | null => dsimp only; rw [ihrest]
          | obj fl2 => dsimp only; rw [ihrest]
        · rw [if_neg hqa] at hb1 ⊢
          by_cases hsq : k = sqK
          · rw [if_pos hsq] at hb1 ⊢
            cases v with
            | arr xs =>
              dsimp only at hb1 ⊢
              have hxs : sizeOf xs < n := by
                have h5 := hsz.1
                simp only [J.arr.sizeOf_spec] at h5
                omega
              rw [(ih (sizeOf xs) hxs).2.2 st xs le_rfl hb1]
              dsimp only
              rw [ihrest]
            | str s => dsimp only; rw [ihrest]
            | num k2 => dsimp only; rw [ihrest]
            | bool b2 => dsimp only; rw [ihrest]
            | null => dsimp only; rw [ihrest]
            | obj fl2 => dsimp only; rw [ihrest]
          · rw [if_neg hsq] at hb1 ⊢
            dsimp only
            rw [ihrest]
    · intro st xs hxs hb
      cases xs with
      | nil => rfl
      | cons x rest =>
        have hsz : sizeOf x < n ∧ sizeOf rest < n := by
          have := hxs; simp only [List.cons.sizeOf_spec] at this; omega
        rw [itemBenignList.eq_def] at hb
        dsimp only at hb
        rw [Bool.and_eq_true] at hb
        obtain ⟨hb1, hb2⟩ := hb
        simp only [trItemList]
        rw [(ih (sizeOf x) hsz.1).1 st x le_rfl hb1]
        dsimp only
        rw [(ih (sizeOf rest) hsz.2).2.2 st rest le_rfl hb2]

/-- Joint size-bounded statement: the `_transform_strings` walk leaves a tree
with benign string leaves (and the state) alone. -/
theorem trStr_id_all (fs : FS) (base : LC) : ∀ n : Nat,
    (∀ (st : MSt) (v : J), sizeOf v ≤ n → strBenignJ fs base v = true →
      trStrJ fs base st v = (v, st)) ∧
    (∀ (st : MSt) (xs : List J), sizeOf xs ≤ n → strBenignList fs base xs = true →
      trStrList fs base st xs = (xs, st)) ∧
    (∀ (st : MSt) (fl : List (LC × J)), sizeOf fl ≤ n →
      strBenignFields fs base fl = true → trStrFields fs base st fl = (fl, st)) := by
  intro n
  induction n using Nat.strong_induction_on with
  | _ n ih =>
    refine ⟨?_, ?_, ?_⟩
    · intro st v hv hb
      cases v with
      | str s =>
        simp only [strBenignJ] at hb
        simp only [trStrJ]
        rw [inlineTextFull_id fs base st s hb]
      | arr xs =>
        have hlt : sizeOf xs < n := by
          have := hv; simp only [J.arr.sizeOf_spec] at this; omega
        simp only [strBenignJ] at hb
        simp only [trStrJ]
        rw [(ih (sizeOf xs) hlt).2.1 st xs le_rfl hb]
      | obj fields =>
        have hlt : sizeOf fields < n := by
          have := hv; simp only [J.obj.sizeOf_spec] at this; omega
        simp only [strBenignJ] at hb
        simp only [trStrJ]
        rw [(ih (sizeOf fields) hlt).2.2 st fields le_rfl hb]
      | num k => rfl
      | bool b => rfl
      | null => rfl
    · intro st xs hxs hb
      cases xs with
      | nil => rfl
      | cons x rest =>
        have hsz : sizeOf x < n ∧ sizeOf rest < n := by
          have := hxs; simp only [List.cons.sizeOf_spec] at this; omega
        rw [strBenignList.eq_def] at hb
        dsimp only at hb
        rw [Bool.and_eq_true] at hb
        obtain ⟨hb1, hb2⟩ := hb
        simp only [trStrList]
        rw [(ih (sizeOf x) hsz.1).1 st x le_rfl hb1]
        dsimp only
        rw [(ih (sizeOf rest) hsz.2).2.1 st rest le_rfl hb2]
    · intro st fl hfl hb
      cases fl with
      | nil => rfl
      | cons kv rest =>
        obtain ⟨k, v⟩ := kv
        have hsz : sizeOf v < n ∧ sizeOf rest < n := by
          have := hfl
          simp only [List.cons.sizeOf_spec, Prod.mk.sizeOf_spec] at this
          omega
        rw [strBenignFields.eq_def] at hb
        dsimp only at hb
        rw [Bool.and_eq_true] at hb
        obtain ⟨hb1, hb2⟩ := hb
        simp only [trStrFields]
        rw [(ih (sizeOf v) hsz.1).1 st v le_rfl hb1]
        dsimp only
        rw [(ih (sizeOf rest) hsz.2).2.2 st rest le_rfl hb2]

/-- Benignity of the top-level parsed value for the item transform (a
top-level list is item-transformed element-wise). -/
def topItemBenign (fs : FS) (base : LC) : J → Bool
  | .arr xs => itemBenignList fs base xs
  | v => itemBenignJ fs base v

/-- A candidate on which no transform of `convert_images_in_json` applies:
every image reference is scheme-prefixed, already a payload, or points at a
missing file. -/
def alreadyInlined (fs : FS) (base : LC) : Candidate → Bool
  | .parsed v =>
    topItemBenign fs base v && strBenignJ fs base v &&
    quotedBenign fs base (dumpJ v) && textBenign fs base (dumpJ v)
  | .raw s => textBenign fs base s && quotedBenign fs base s

/-- A benign structured pass leaves the tree and the fresh state alone. -/
theorem convertStructuredBody_id (fs : FS) (base : LC) (v : J)
    (h1 : topItemBenign fs base v = true) (h2 : strBenignJ fs base v = true) :
    convertStructuredBody fs base v = (v, initialCachedSt) := by
  cases v with
  | arr xs =>
    rw [topItemBenign.eq_def] at h1
    dsimp only at h1
    simp only [strBenignJ] at h2
    simp only [convertStructuredBody]
    rw [(trItem_id_all fs base (sizeOf xs)).2.2 initialCachedSt xs le_rfl h1]
    dsimp only
    rw [(trStr_id_all fs base (sizeOf xs)).2.1 initialCachedSt xs le_rfl h2]
  | obj fields =>
    rw [topItemBenign.eq_def] at h1
    dsimp only at h1
    simp only [convertStructuredBody]
    rw [(trItem_id_all fs base (sizeOf (J.obj fields))).1 initialCachedSt
      (J.obj fields) le_rfl h1]
    dsimp only
    rw [(trStr_id_all fs base (sizeOf (J.obj fields))).1 initialCachedSt
      (J.obj fields) le_rfl h2]
  | str s => rfl
  | num k => rfl
  | bool b => rfl
  | null => rfl

/-- C5: inlining is idempotent — on a candidate whose image references are all
already rewritten (scheme-prefixed or payloads) or dangling, a further
`convert_images_in_json` pass returns the input text unchanged and leaves the
filesystem untouched. -/
theorem claim5_idempotence (fs : FS) (base : LC) (c : Candidate)
    (hb : alreadyInlined fs base c = true) :
    (convertImagesInJson fs base c).out = candidateText c ∧
    (convertImagesInJson fs base c).fsAfter = fs := by
  cases c with
  | parsed v =>
    simp only [alreadyInlined, Bool.and_eq_true] at hb
    obtain ⟨⟨⟨h1, h2⟩, h3⟩, h4⟩ := hb
    have hcore : convertParsedCore fs base v = (dumpJ v, initialCachedSt) := by
      unfold convertParsedCore
      rw [convertStructuredBody_id fs base v h1 h2]
      unfold convertPostPasses
      dsimp only
      have hq : (if containsSeg imgsT (dumpJ v) then
          subQI fs base initialCachedSt (dumpJ v)
        else (dumpJ v, initialCachedSt)) = (dumpJ v, initialCachedSt) := by
        by_cases hcs : containsSeg imgsT (dumpJ v) = true
        · rw [if_pos hcs]
          exact subQI_id fs base initialCachedSt (dumpJ v) h3
        · rw [if_neg hcs]
      rw [hq]
      dsimp only
      exact inlineTextFull_id fs base initialCachedSt (dumpJ v) h4
    simp only [convertImagesInJson, convertParsed]
    rw [hcore]
    dsimp only
    refine ⟨rfl, ?_⟩
    simp [delListOf, initialCachedSt, fsEraseAll]
  | raw s =>
    simp only [alreadyInlined, Bool.and_eq_true] at hb
    obtain ⟨h1, h2⟩ := hb
    simp only [convertImagesInJson, convertRaw]
    rw [inlineTextFull_id fs base initialPlainSt s h1]
    dsimp only
    rw [subQI_id fs base initialPlainSt s h2]
    exact ⟨rfl, trivial⟩

/-- Concrete filesystem for the idempotence witness. -/
def wFs5 : FS := [(cs "imgs/a.png", cs "ABC")]

/-- Concrete base directory for the idempotence witness. -/
def wBase5 : LC := cs "."

/-- Concrete already-inlined candidate: a parsed object whose only string leaf
holds an `<img>` tag with a `data:` URI payload. -/
def wCand5 : Candidate :=
  .parsed (.obj [(cs "question",
    .str (cs "<img src=" ++ [dqC] ++ cs "data:image/png;base64,QUJD" ++ [dqC] ++ cs ">"))])

theorem claim5_idempotence_witness :
    alreadyInlined wFs5 wBase5 wCand5 = true ∧
    ((convertImagesInJson wFs5 wBase5 wCand5).out = candidateText wCand5 ∧
     (convertImagesInJson wFs5 wBase5 wCand5).fsAfter = wFs5) :=
  ⟨by decide, claim5_idempotence wFs5 wBase5 wCand5 (by decide)⟩

/-- The fueled scanner does not depend on the exact fuel, as long as the fuel
covers the input length. -/
theorem scanSubF_fuel (tm : LC → Option MatchRes) (rep : MatchRes → MSt → LC × MSt) :
    ∀ n : Nat, ∀ l : LC, l.length ≤ n → ∀ (st : MSt) (fuel fuel' : Nat),
      l.length ≤ fuel → l.length ≤ fuel' →
      scanSubF tm rep fuel st l = scanSubF tm rep fuel' st l := by
  intro n
  induction n using Nat.strong_induction_on with
  | _ n ih =>
    intro l hln st fuel fuel' hf hf'
    cases l with
    | nil => cases fuel <;> cases fuel' <;> rfl
    | cons c rest =>
      simp only [List.length_cons] at hln hf hf'
      cases fuel with
      | zero => omega
      | succ f =>
        cases fuel' with
        | zero => omega
        | succ f2 =>
          simp only [scanSubF]
          cases htm : tm (c :: rest) with
          | none =>
            have hlt : rest.length < n := by omega
            rw [ih rest.length hlt rest le_rfl st f f2 (by omega) (by omega)]
          | some m =>
            dsimp only
            by_cases hlen : 1 ≤ m.len
            · rw [if_pos hlen, if_pos hlen]
              have hdl : ((c :: rest).drop m.len).length < n := by
                simp only [List.length_drop, List.length_cons]
                omega
              rw [ih ((c :: rest).drop m.len).length hdl ((c :: rest).drop m.len)
                le_rfl (rep m st).2 f f2 ?_ ?_]
              · simp only [List.length_drop, List.length_cons]
                omega
              · simp only [List.length_drop, List.length_cons]
                omega
            · rw [if_neg hlen, if_neg hlen]
              have hlt : rest.length < n := by omega
              rw [ih rest.length hlt rest le_rfl st f f2 (by omega) (by omega)]

/-- `takeWhile` / `dropWhile` on a list whose prefix satisfies the predicate,
followed by a failing element. -/
theorem takeWhile_all_append (p : Char → Bool) :
    ∀ l : LC, (∀ x ∈ l, p x = true) → ∀ (y : Char) (ys : LC), p y = false →
      (l ++ y :: ys).takeWhile p = l ∧ (l ++ y :: ys).dropWhile p = y :: ys := by
  intro l
  induction l with
  | nil =>
    intro _ y ys hy
    constructor
    · simp [List.takeWhile, hy]
    · simp [List.dropWhile, hy]
  | cons a l ih =>
    intro hall y ys hy
    have ha : p a = true := hall a (List.mem_cons_self a l)
    have hrest := ih (fun x hx => hall x (List.mem_cons_of_mem a hx)) y ys hy
    constructor
    · simp only [List.cons_append, List.takeWhile_cons, ha, if_true]
      rw [hrest.1]
    · simp only [List.cons_append, List.dropWhile_cons, ha, if_true]
      exact hrest.2

/-- The bare-quoted matcher fails unless the head is a double quote. -/
theorem tryMatchQ_none_head (c : Char) (rest : LC) (hc : ¬ c = dqC) :
    tryMatchQ (c :: rest) = none := by
  simp only [tryMatchQ]
  rw [if_neg hc]

/-- The bare-quoted matcher at a well-formed `"imgs/..."` occurrence. -/
theorem tryMatchQ_at (rel b : LC) (hpre : imgsT.isPrefixOf rel = true)
    (hlen : imgsT.length < rel.length) (hnq : dqC ∉ rel) :
    tryMatchQ (dqC :: (rel ++ dqC :: b)) = some ⟨[dqC], rel, [dqC]⟩ := by
  have hall : ∀ x ∈ rel, notCh dqC x = true := by
    intro x hx
    have hne : x ≠ dqC := fun h => hnq (h ▸ hx)
    simp [notCh, hne]
  have htk := takeWhile_all_append (notCh dqC) rel hall dqC b (by simp [notCh])
  simp only [tryMatchQ]
  rw [if_pos trivial]
  rw [htk.1, htk.2]
  rw [if_pos ⟨hpre, hlen⟩]
  dsimp only
  rw [if_pos rfl]

/-- The bare-quoted pass copies a prefix verbatim when no position inside it
starts a match (in particular across quotes that do not open an `"imgs/..."`
occurrence, such as quoted JSON keys). -/
theorem scanSubF_skipQ (fs : FS) (base : LC) :
    ∀ (a tail : LC) (st : MSt),
      (∀ i, i < a.length → tryMatchQ (a.drop i ++ tail) = none) →
      scanSubF tryMatchQ (repQuoted fs base) (a ++ tail).length st (a ++ tail)
        = (a ++ (scanSubF tryMatchQ (repQuoted fs base) tail.length st tail).1,
           (scanSubF tryMatchQ (repQuoted fs base) tail.length st tail).2) := by
  intro a
  induction a with
  | nil =>
    intro tail st _
    simp only [List.nil_append]
  | cons c a ih =>
    intro tail st h
    have h0 : tryMatchQ (c :: (a ++ tail)) = none := by
      have h1 := h 0 (by simp)
      simpa using h1
    have h2 : ∀ i, i < a.length → tryMatchQ (a.drop i ++ tail) = none := by
      intro i hi
      have h3 := h (i + 1) (by simpa using Nat.succ_lt_succ hi)
      simpa using h3
    simp only [List.cons_append, List.length_cons, scanSubF, List.append_eq]
    rw [h0]
    dsimp only
    rw [ih tail st h2]

/-- The bare-quoted pass on `a ++ "rel" ++ b` with a quote-free `a`, a
well-formed `imgs/` path `rel` and an existing file: the occurrence is replaced
by the quoted base64 payload, the read is logged, and scanning resumes on `b`. -/
theorem subQI_split (fs : FS) (base : LC) (a rel b ct : LC) (st : MSt)
    (ha : ∀ i, i < a.length → tryMatchQ (a.drop i ++ dqC :: (rel ++ dqC :: b)) = none)
    (hpre : imgsT.isPrefixOf rel = true)
    (hlen : imgsT.length < rel.length) (hnq : dqC ∉ rel)
    (hct : alookup fs (resolvePath base rel) = some ct) :
    subQI fs base st (a ++ dqC :: (rel ++ dqC :: b))
      = (a ++ (dqC :: (toBase64 ct ++ [dqC])
           ++ (subQI fs base { st with readsU := st.readsU ++ [resolvePath base rel] } b).1),
         (subQI fs base { st with readsU := st.readsU ++ [resolvePath base rel] } b).2) := by
  unfold subQI scanSub
  rw [scanSubF_skipQ fs base a (dqC :: (rel ++ dqC :: b)) st ha]
  have hstep : scanSubF tryMatchQ (repQuoted fs base) (dqC :: (rel ++ dqC :: b)).length st
        (dqC :: (rel ++ dqC :: b))
      = ((dqC :: (toBase64 ct ++ [dqC]))
           ++ (scanSubF tryMatchQ (repQuoted fs base) b.length
                { st with readsU := st.readsU ++ [resolvePath base rel] } b).1,
         (scanSubF tryMatchQ (repQuoted fs base) b.length
                { st with readsU := st.readsU ++ [resolvePath base rel] } b).2) := by
    simp only [List.length_cons, scanSubF]
    rw [tryMatchQ_at rel b hpre hlen hnq]
    dsimp only
    rw [if_pos (by simp [MatchRes.len] : 1 ≤ MatchRes.len ⟨[dqC], rel, [dqC]⟩)]
    have hrep : repQuoted fs base ⟨[dqC], rel, [dqC]⟩ st
        = (dqC :: (toBase64 ct ++ [dqC]),
           { st with readsU := st.readsU ++ [resolvePath base rel] }) := by
      unfold repQuoted
      dsimp only
      rw [hct]
    rw [hrep]
    dsimp only
    have hdrop : (dqC :: (rel ++ dqC :: b)).drop (MatchRes.len ⟨[dqC], rel, [dqC]⟩) = b := by
      have hsplit : dqC :: (rel ++ dqC :: b) = (dqC :: (rel ++ [dqC])) ++ b := by
        simp
      rw [hsplit]
      refine List.drop_left' ?_
      simp [MatchRes.len]
      omega
    rw [hdrop]
    rw [scanSubF_fuel tryMatchQ (repQuoted fs base) (rel ++ dqC :: b).length b
      (by simp only [List.length_append, List.length_cons]; omega) _
      ((rel ++ dqC :: b).length) b.length
      (by simp only [List.length_append, List.length_cons]; omega) le_rfl]
  rw [hstep]

/-- A raw text decomposed into separator/quoted-`imgs/`-path chunks and a
trailing remainder: `buildQ [(a1,r1),...,(an,rn)] b` is
`a1 ++ "r1" ++ ... ++ an ++ "rn" ++ b`. -/
def buildQ : List (LC × LC) → LC → LC
  | [], b => b
  | (a, rel) :: rest, b => a ++ dqC :: (rel ++ dqC :: buildQ rest b)

/-- The expected output of the bare-quoted pass on such a decomposition: each
quoted path replaced by its quoted base64 payload. -/
def qOut (fs : FS) (base : LC) : List (LC × LC) → LC → LC
  | [], b => b
  | (a, rel) :: rest, b =>
    a ++ (dqC :: (toBase64 ((alookup fs (resolvePath base rel)).getD []) ++ [dqC])
      ++ qOut fs base rest b)

/-- The reads the pass performs on such a decomposition, in order. -/
def qReads (base : LC) : List (LC × LC) → List LC
  | [] => []
  | (_, rel) :: rest => resolvePath base rel :: qReads base rest

/-- Well-formedness of a decomposition for the scanner: no position inside a
separator starts a match, each quoted path is a proper `imgs/` path naming an
existing file, and the trailing remainder produces no further replacement. -/
def chunksOK (fs : FS) (base : LC) : List (LC × LC) → LC → Bool
  | [], b => quotedBenign fs base b
  | (a, rel) :: rest, b =>
    (List.range a.length).all
      (fun i => decide (tryMatchQ (a.drop i ++ dqC :: (rel ++ dqC :: buildQ rest b)) = none)) &&
    imgsT.isPrefixOf rel && decide (imgsT.length < rel.length) &&
    decide (dqC ∉ rel) && (alookup fs (resolvePath base rel)).isSome &&
    chunksOK fs base rest b

/-- The bare-quoted pass replaces every quoted `imgs/` occurrence of a
well-formed decomposition by its base64 payload and logs every read. -/
theorem subQI_replaceAll (fs : FS) (base : LC) :
    ∀ (chunks : List (LC × LC)) (b : LC) (st : MSt),
      chunksOK fs base chunks b = true →
      subQI fs base st (buildQ chunks b)
        = (qOut fs base chunks b,
           { st with readsU := st.readsU ++ qReads base chunks }) := by
  intro chunks
  induction chunks with
  | nil =>
    intro b st hok
    simp only [chunksOK] at hok
    simp only [buildQ, qOut, qReads]
    rw [subQI_id fs base st b hok]
    simp
  | cons c rest ih =>
    obtain ⟨a, rel⟩ := c
    intro b st hok
    simp only [chunksOK, Bool.and_eq_true] at hok
    obtain ⟨⟨⟨⟨⟨hskip, hpre⟩, hlen⟩, hnq⟩, hsome⟩, hrest⟩ := hok
    obtain ⟨ct, hct⟩ := Option.isSome_iff_exists.mp hsome
    have ha : ∀ i, i < a.length →
        tryMatchQ (a.drop i ++ dqC :: (rel ++ dqC :: buildQ rest b)) = none := by
      intro i hi
      exact of_decide_eq_true (List.all_eq_true.mp hskip i (List.mem_range.mpr hi))
    simp only [buildQ, qOut, qReads]
    rw [subQI_split fs base a rel (buildQ rest b) ct st ha hpre
      (of_decide_eq_true hlen) (of_decide_eq_true hnq) hct]
    rw [ih b _ hrest]
    rw [hct]
    simp [List.append_assoc]

/-- C7: on the unstructured path (JSON parse failed) the pass is total and
purely textual — for any raw text decomposed into well-formed quoted
`imgs/...` occurrences naming existing files, with separators the scanner
walks through (quoted keys and any other non-matching text allowed), every
occurrence is replaced by the file's quoted base64 payload and every read is
logged, the separators and remainder staying verbatim; and when no transform
applies at all, the original string is returned unchanged. -/
theorem claim7_unstructured_fallback (fs : FS) (base : LC)
    (chunks : List (LC × LC)) (b : LC)
    (hok : chunksOK fs base chunks b = true)
    (htext : textBenign fs base (buildQ chunks b) = true) :
    (convertRaw fs base (buildQ chunks b)).out = qOut fs base chunks b ∧
    (convertRaw fs base (buildQ chunks b)).readsU = qReads base chunks ∧
    (∀ s : LC, textBenign fs base s = true → quotedBenign fs base s = true →
      (convertRaw fs base s).out = s) := by
  have hsub := subQI_replaceAll fs base chunks b
    { initialPlainSt with readsU := initialPlainSt.readsU } hok
  refine ⟨?_, ?_, ?_⟩
  · simp only [convertRaw]
    rw [inlineTextFull_id fs base initialPlainSt _ htext]
    dsimp only
    rw [subQI_replaceAll fs base chunks b initialPlainSt hok]
  · simp only [convertRaw]
    rw [inlineTextFull_id fs base initialPlainSt _ htext]
    dsimp only
    rw [subQI_replaceAll fs base chunks b initialPlainSt hok]
    simp [initialPlainSt]
  · intro s h1 h2
    simp only [convertRaw]
    rw [inlineTextFull_id fs base initialPlainSt s h1]
    dsimp only
    rw [subQI_id fs base initialPlainSt s h2]

/-- Concrete filesystem for the unstructured-fallback witness: two local
images under the base directory. -/
def w7fs : FS := [(cs "out/imgs/a.png", cs "A"), (cs "out/imgs/b.png", cs "B")]

/-- Concrete base directory for the unstructured-fallback witness. -/
def w7base : LC := cs "out"

/-- Concrete malformed-JSON decomposition: two quoted `imgs/` occurrences with
quoted JSON keys in the separators. -/
def w7chunks : List (LC × LC) :=
  [(cs "\x7b" ++ [dqC] ++ cs "k" ++ [dqC] ++ cs ": ", cs "imgs/a.png"),
   (cs ", " ++ [dqC] ++ cs "j" ++ [dqC] ++ cs ": ", cs "imgs/b.png")]

/-- Concrete trailing remainder (the malformed text never closes the brace). -/
def w7b : LC := cs ", "

theorem claim7_unstructured_fallback_witness :
    (chunksOK w7fs w7base w7chunks w7b = true ∧
     textBenign w7fs w7base (buildQ w7chunks w7b) = true) ∧
    ((convertRaw w7fs w7base (buildQ w7chunks w7b)).out = qOut w7fs w7base w7chunks w7b ∧
     (convertRaw w7fs w7base (buildQ w7chunks w7b)).readsU = qReads w7base w7chunks ∧
     (∀ s : LC, textBenign w7fs w7base s = true → quotedBenign w7fs w7base s = true →
       (convertRaw w7fs w7base s).out = s)) :=
  ⟨⟨by decide, by decide⟩,
   claim7_unstructured_fallback w7fs w7base w7chunks w7b (by decide) (by decide)⟩
